import Mathlib

/-!
# Copilot Arcade: the snake game engine of `src/js/game.js`

A shallow embedding of the game-state engine (reset, food placement, tick,
frame loop, key handler) and proofs about it.

Modelling conventions.

* The module-level variables of `game.js` become the record `GameState`;
  every function that mutates them becomes a function on `GameState`.
* JavaScript numbers that hold integers (coordinates, score, levels,
  milliseconds) are `Int`; `%` is the truncating remainder `Int.tmod`.
* `Math.random` is an input: a call of `placeFood` receives the list of
  cells `(Math.floor(Math.random() * COLS), Math.floor(Math.random() * ROWS))`
  that its successive loop iterations draw. The list is finite, so a run
  whose draws are used up before the loop exits is reported as
  `Fault.drawsExhausted` (the loop has not terminated within these draws).
  `randomCell` computes a drawn cell from the two numbers `Math.random`
  returns, taken as exact rationals in `[0, 1)`; `ReachableRandom` feeds the
  program with cells computed that way.
* Reading `snake[0].x` on an empty array throws; that is `Fault.typeError`.
* Drawing, overlay text and `localStorage` writes do not feed back into the
  game state and are left out.
-/

namespace Snake

/-! ## Data model -/

/-- A grid cell or a direction vector: the object `{ x, y }` of the source. -/
structure Cell where
  x : Int
  y : Int
deriving DecidableEq, Repr

/-- The ways a run can fail to complete normally. -/
inductive Fault where
  | typeError
  | drawsExhausted
deriving DecidableEq, Repr

/-- The module-level variables of `game.js` (lines 44-47). -/
structure GameState where
  snake : List Cell
  direction : Cell
  nextDirection : Cell
  food : Cell
  score : Int
  highScore : Int
  speedLevel : Int
  running : Bool
  paused : Bool
  gameOver : Bool
  lastTick : Int
  tickInterval : Int
deriving DecidableEq, Repr

/-! ## Constants (lines 20-25) -/

/-- Cell size in pixels. -/
def GRID : Int := 20

/-- Modelled from the spec: the canvas element lives in the HTML page, which is
not part of the sources; the spec fixes the grid at 20 by 20 cells and the
source comments `COLS` as 20, so the canvas is 400 pixels wide. -/
def canvasWidth : Int := 400

/-- Modelled from the spec: see `canvasWidth`; the canvas is 400 pixels high. -/
def canvasHeight : Int := 400

/-- Number of columns, `canvas.width / GRID`. -/
def COLS : Int := canvasWidth / GRID

/-- Number of rows, `canvas.height / GRID`. -/
def ROWS : Int := canvasHeight / GRID

/-- Milliseconds per move at speed 1. -/
def BASE_TICK : Int := 150

/-- Milliseconds faster per speed level. -/
def SPEED_UP : Int := 8

/-- Points before a speed bump. -/
def PTS_PER_LVL : Int := 5

/-! ## Direction vectors (lines 36-41) -/

/-- Vector of `DIR.UP`. -/
def DIR.UP : Cell := ⟨0, -1⟩

/-- Vector of `DIR.DOWN`. -/
def DIR.DOWN : Cell := ⟨0, 1⟩

/-- Vector of `DIR.LEFT`. -/
def DIR.LEFT : Cell := ⟨-1, 0⟩

/-- Vector of `DIR.RIGHT`. -/
def DIR.RIGHT : Cell := ⟨1, 0⟩

/-! ## Food (lines 79-88) -/

/-- The test `snake.some(s => s.x === pos.x && s.y === pos.y)`. -/
def occupies (snake : List Cell) (pos : Cell) : Bool :=
  snake.any (fun s => decide (s.x = pos.x) && decide (s.y = pos.y))

/-- The `do ... while` loop of `placeFood`: take the next draw, repeat while it
lies on the snake, and return the first draw that does not. -/
def placeFoodLoop (snake : List Cell) : List Cell → Except Fault Cell
  | [] => .error .drawsExhausted
  | pos :: rest => if occupies snake pos then placeFoodLoop snake rest else .ok pos

/-- The function `placeFood`: run the loop and assign its result to `food`. -/
def placeFood (s : GameState) (draws : List Cell) : Except Fault GameState :=
  match placeFoodLoop s.snake draws with
  | .error f => .error f
  | .ok pos => .ok { s with food := pos }

/-! ## Init / reset (lines 50-76) -/

/-- The function `resetGame`: every variable except `highScore` is assigned. -/
def resetGame (s : GameState) (draws : List Cell) : Except Fault GameState :=
  let mid := COLS / 2
  placeFood
    { s with
      snake := [⟨mid, 10⟩, ⟨mid - 1, 10⟩, ⟨mid - 2, 10⟩]
      direction := DIR.RIGHT
      nextDirection := DIR.RIGHT
      score := 0
      speedLevel := 1
      running := false
      paused := false
      gameOver := false
      lastTick := 0
      tickInterval := BASE_TICK }
    draws

/-- The function `init`: load the high score, then reset. The variables that
`resetGame` overwrites have no value yet; the record passed in fills them with
the values `resetGame` is about to assign. -/
def init (loadedHighScore : Int) (draws : List Cell) : Except Fault GameState :=
  resetGame
    { snake := [], direction := DIR.RIGHT, nextDirection := DIR.RIGHT, food := ⟨0, 0⟩,
      score := 0, highScore := loadedHighScore, speedLevel := 1, running := false,
      paused := false, gameOver := false, lastTick := 0, tickInterval := BASE_TICK }
    draws

/-! ## End game (lines 200-207) -/

/-- The function `endGame`. -/
def endGame (s : GameState) : GameState :=
  { s with gameOver := true, running := false }

/-! ## Update (lines 91-127) -/

/-- The cell `{ x: snake[0].x + d.x, y: snake[0].y + d.y }`. -/
def advance (s0 d : Cell) : Cell := ⟨s0.x + d.x, s0.y + d.y⟩

/-- The wall test of line 100. -/
def hitsWall (head : Cell) : Bool :=
  decide (head.x < 0) || decide (head.x ≥ COLS) || decide (head.y < 0) || decide (head.y ≥ ROWS)

/-- The body of the `if` of lines 111-123, run after the new head is in place. -/
def eat (s : GameState) (draws : List Cell) : Except Fault GameState :=
  let s1 := { s with score := s.score + 1 }
  let s2 := if s1.score > s1.highScore then { s1 with highScore := s1.score } else s1
  let s3 :=
    if s2.score.tmod PTS_PER_LVL = 0 then
      let s2a := { s2 with speedLevel := s2.speedLevel + 1 }
      { s2a with tickInterval := max 50 (BASE_TICK - s2a.speedLevel * SPEED_UP) }
    else s2
  placeFood s3 draws

/-- The function `update`, one tick. -/
def update (s : GameState) (draws : List Cell) : Except Fault GameState :=
  let s1 := { s with direction := s.nextDirection }
  match s1.snake with
  | [] => .error .typeError
  | s0 :: _ =>
    let head := advance s0 s1.direction
    if hitsWall head then .ok (endGame s1)
    else if occupies s1.snake head then .ok (endGame s1)
    else
      let s2 := { s1 with snake := head :: s1.snake }
      if head.x = s2.food.x ∧ head.y = s2.food.y then eat s2 draws
      else .ok { s2 with snake := s2.snake.dropLast }

/-! ## Game loop (lines 180-189) -/

/-- The function `loop`, one animation frame; drawing is left out. -/
def loop (s : GameState) (timestamp : Int) (draws : List Cell) : Except Fault GameState :=
  if s.running && !s.paused && !s.gameOver then
    if timestamp - s.lastTick ≥ s.tickInterval then
      update { s with lastTick := timestamp } draws
    else .ok s
  else .ok s

/-! ## Input (lines 217-257) -/

/-- The values of `e.code` the handler tells apart; `other` is any other key. -/
inductive KeyCode where
  | Space | Enter | KeyP
  | ArrowUp | KeyW | ArrowDown | KeyS | ArrowLeft | KeyA | ArrowRight | KeyD
  | other
deriving DecidableEq, Repr

/-- The table `keyMap`; a missing key is `none`. -/
def keyMap : KeyCode → Option Cell
  | .ArrowUp => some DIR.UP
  | .KeyW => some DIR.UP
  | .ArrowDown => some DIR.DOWN
  | .KeyS => some DIR.DOWN
  | .ArrowLeft => some DIR.LEFT
  | .KeyA => some DIR.LEFT
  | .ArrowRight => some DIR.RIGHT
  | .KeyD => some DIR.RIGHT
  | _ => none

/-- The function `opposite`. -/
def opposite (a b : Cell) : Bool :=
  decide (a.x + b.x = 0) && decide (a.y + b.y = 0)

/-- The `keydown` listener. -/
def keydown (s : GameState) (code : KeyCode) (draws : List Cell) : Except Fault GameState :=
  if code = .Space ∨ code = .Enter then
    if !s.running || s.gameOver then
      match resetGame s draws with
      | .error f => .error f
      | .ok s1 => .ok { s1 with running := true }
    else .ok s
  else if code = .KeyP ∧ s.running = true ∧ s.gameOver = false then
    .ok { s with paused := !s.paused }
  else
    match keyMap code with
    | some dir => if !opposite dir s.direction then .ok { s with nextDirection := dir } else .ok s
    | none => .ok s

/-! ## Runs of the program -/

/-- What the host delivers to the engine: a key press or an animation frame. -/
inductive Event where
  | key (code : KeyCode)
  | frame (timestamp : Int)
deriving DecidableEq, Repr

/-- One event handled from state `s`. -/
def step (s : GameState) (e : Event) (draws : List Cell) : Except Fault GameState :=
  match e with
  | .key code => keydown s code draws
  | .frame timestamp => loop s timestamp draws

/-- A draw is a pair of `Math.floor(Math.random() * n)`, so it lies in the grid. -/
def inGrid (c : Cell) : Prop := 0 ≤ c.x ∧ c.x < COLS ∧ 0 ≤ c.y ∧ c.y < ROWS

instance (c : Cell) : Decidable (inGrid c) := by unfold inGrid; infer_instance

/-- The states the program can be in: after `init`, and after any further
event that is handled to completion, with draws that `Math.random` can give. -/
inductive Reachable : GameState → Prop where
  | boot (loadedHighScore : Int) (draws : List Cell) (s : GameState)
      (hd : ∀ d ∈ draws, inGrid d) (h : init loadedHighScore draws = .ok s) : Reachable s
  | next (s s' : GameState) (e : Event) (draws : List Cell)
      (hs : Reachable s) (hd : ∀ d ∈ draws, inGrid d) (h : step s e draws = .ok s') :
      Reachable s'

/-! ## Predicates used in the statements -/

/-- One of the four vectors of `DIR`. -/
def isDir (d : Cell) : Prop := d = DIR.UP ∨ d = DIR.DOWN ∨ d = DIR.LEFT ∨ d = DIR.RIGHT

instance (d : Cell) : Decidable (isDir d) := by unfold isDir; infer_instance

/-- The state `eat` hands to `placeFood`: score, high score, speed level and
tick interval are already updated; only `food` is still the eaten one. -/
def fed (s : GameState) : GameState :=
  { s with
    score := s.score + 1
    highScore := if s.score + 1 > s.highScore then s.score + 1 else s.highScore
    speedLevel := if (s.score + 1).tmod PTS_PER_LVL = 0 then s.speedLevel + 1 else s.speedLevel
    tickInterval :=
      if (s.score + 1).tmod PTS_PER_LVL = 0 then max 50 (BASE_TICK - (s.speedLevel + 1) * SPEED_UP)
      else s.tickInterval }

/-- The neck relation: while the game is not over, the head is the second cell
moved by the committed direction, and the pending direction does not reverse it. -/
def NeckInv (s : GameState) : Prop :=
  isDir s.nextDirection ∧
  (s.gameOver = false →
    ∃ h n rest, s.snake = h :: n :: rest ∧ h = advance n s.direction ∧
      opposite s.nextDirection s.direction = false)

/-- The guard of `loop`: the frame at `timestamp` runs a tick. -/
def tickDue (s : GameState) (timestamp : Int) : Bool :=
  s.running && !s.paused && !s.gameOver && decide (timestamp - s.lastTick ≥ s.tickInterval)

/-- The tick from `s` reaches the `Eat food?` branch with the test true: the new
head is inside the grid, off the snake and on the food. -/
def eats (s : GameState) : Bool :=
  match s.snake with
  | [] => false
  | s0 :: _ =>
    !hitsWall (advance s0 s.nextDirection) && !occupies s.snake (advance s0 s.nextDirection) &&
      decide (advance s0 s.nextDirection = s.food)

/-- The key handler calls `resetGame`: Space or Enter while not running or after
game over. -/
def restarts (s : GameState) (code : KeyCode) : Bool :=
  (decide (code = .Space) || decide (code = .Enter)) && (!s.running || s.gameOver)

/-- The number of food items eaten since the last reset, after event `e` is
handled from a state in which that number was `n`. -/
def eatenAfter (s : GameState) (e : Event) (n : Nat) : Nat :=
  match e with
  | .key code => if restarts s code then 0 else n
  | .frame timestamp => if tickDue s timestamp && eats s then n + 1 else n

/-- Reachability that also counts: `ReachableEaten s n` says that `s` is reached
by a run in which `n` food items were eaten since the last `resetGame`. -/
inductive ReachableEaten : GameState → Nat → Prop where
  | boot (loadedHighScore : Int) (draws : List Cell) (s : GameState)
      (hd : ∀ d ∈ draws, inGrid d) (h : init loadedHighScore draws = .ok s) :
      ReachableEaten s 0
  | next (s s' : GameState) (e : Event) (draws : List Cell) (n : Nat)
      (hs : ReachableEaten s n) (hd : ∀ d ∈ draws, inGrid d) (h : step s e draws = .ok s') :
      ReachableEaten s' (eatenAfter s e n)

/-- Handle a list of events in order, each with the draws its `placeFood` call
receives, keeping count of the food eaten since the last reset. -/
def runFrom (s : GameState) (n : Nat) : List (Event × List Cell) → Except Fault (GameState × Nat)
  | [] => .ok (s, n)
  | (e, draws) :: rest =>
    match step s e draws with
    | .error f => .error f
    | .ok s' => runFrom s' (eatenAfter s e n) rest

/-! ## Concrete states used in examples -/

/-- A run from the fresh game: Space starts it with the food drawn at (11, 10),
then five ticks, 150 ms apart, each eat the food and draw the next one cell
further right; the last draw puts the food at (0, 0). -/
def fiveMeals : List (Event × List Cell) :=
  [(.key .Space, [⟨11, 10⟩]), (.frame 150, [⟨12, 10⟩]), (.frame 300, [⟨13, 10⟩]),
   (.frame 450, [⟨14, 10⟩]), (.frame 600, [⟨15, 10⟩]), (.frame 750, [⟨0, 0⟩])]

/-- The state at the end of the run `fiveMeals`. -/
def levelTwoState : GameState :=
  { snake := [⟨15, 10⟩, ⟨14, 10⟩, ⟨13, 10⟩, ⟨12, 10⟩, ⟨11, 10⟩, ⟨10, 10⟩, ⟨9, 10⟩, ⟨8, 10⟩],
    direction := DIR.RIGHT, nextDirection := DIR.RIGHT, food := ⟨0, 0⟩, score := 5,
    highScore := 5, speedLevel := 2, running := true, paused := false, gameOver := false,
    lastTick := 750, tickInterval := 134 }

/-- A 4-cell snake bent into a U whose next move (Right) enters its own tail
cell (6, 5). -/
def tailBiteState : GameState :=
  { snake := [⟨5, 5⟩, ⟨5, 6⟩, ⟨6, 6⟩, ⟨6, 5⟩], direction := DIR.UP, nextDirection := DIR.RIGHT,
    food := ⟨0, 0⟩, score := 1, highScore := 1, speedLevel := 1, running := true,
    paused := false, gameOver := false, lastTick := 0, tickInterval := 150 }

/-- Scenario B: the head in the rightmost column, moving right. -/
def wallState : GameState :=
  { snake := [⟨19, 10⟩, ⟨18, 10⟩, ⟨17, 10⟩], direction := DIR.RIGHT, nextDirection := DIR.RIGHT,
    food := ⟨0, 0⟩, score := 0, highScore := 0, speedLevel := 1, running := true,
    paused := false, gameOver := false, lastTick := 0, tickInterval := 150 }

/-- Scenario C: the started fresh game with the food right ahead of the head. -/
def foodAheadState : GameState :=
  { snake := [⟨10, 10⟩, ⟨9, 10⟩, ⟨8, 10⟩], direction := DIR.RIGHT, nextDirection := DIR.RIGHT,
    food := ⟨11, 10⟩, score := 0, highScore := 0, speedLevel := 1, running := true,
    paused := false, gameOver := false, lastTick := 0, tickInterval := 150 }

/-- The state right after `init` with stored high score 0 when the first draw
is the cell (0, 0): the 3-cell starting snake heading right, not yet started. -/
def freshState : GameState :=
  { snake := [⟨10, 10⟩, ⟨9, 10⟩, ⟨8, 10⟩], direction := DIR.RIGHT, nextDirection := DIR.RIGHT,
    food := ⟨0, 0⟩, score := 0, highScore := 0, speedLevel := 1, running := false,
    paused := false, gameOver := false, lastTick := 0, tickInterval := 150 }

/-! ## Further notions used in the statements -/

/-- Reachability that remembers the high score that `init` loaded. -/
inductive ReachableFrom (loaded : Int) : GameState → Prop where
  | boot (draws : List Cell) (s : GameState)
      (hd : ∀ d ∈ draws, inGrid d) (h : init loaded draws = .ok s) : ReachableFrom loaded s
  | next (s s' : GameState) (e : Event) (draws : List Cell)
      (hs : ReachableFrom loaded s) (hd : ∀ d ∈ draws, inGrid d)
      (h : step s e draws = .ok s') : ReachableFrom loaded s'

/-- Grid-adjacent cells: they differ by exactly 1 in one coordinate and are
equal in the other. -/
def adjacent (a b : Cell) : Prop :=
  ((a.x - b.x = 1 ∨ b.x - a.x = 1) ∧ a.y = b.y) ∨ (a.x = b.x ∧ (a.y - b.y = 1 ∨ b.y - a.y = 1))

instance (a b : Cell) : Decidable (adjacent a b) := by unfold adjacent; infer_instance

/-- The key handler run on a sequence of keys, in order; none of them needs a
draw unless it restarts the game, so each is given the same draws. -/
def keydowns (s : GameState) (draws : List Cell) : List KeyCode → Except Fault GameState
  | [] => .ok s
  | code :: rest =>
    match keydown s code draws with
    | .error f => .error f
    | .ok s' => keydowns s' draws rest

/-- The last request of a sequence that is not the opposite of the committed
direction, or the previous pending direction when there is none. -/
def lastAccepted (committed pending : Cell) (requests : List Cell) : Cell :=
  ((requests.filter (fun r => !opposite r committed)).getLast?).getD pending

/-- The four combinations of `(running, paused, gameOver)` named by the state
machine: Idle, Running, Paused, GameOver. -/
def flagsOk (s : GameState) : Prop :=
  (s.running = false ∧ s.paused = false ∧ s.gameOver = false) ∨
  (s.running = true ∧ s.paused = false ∧ s.gameOver = false) ∨
  (s.running = true ∧ s.paused = true ∧ s.gameOver = false) ∨
  (s.running = false ∧ s.paused = false ∧ s.gameOver = true)

/-- The expression `{ x: Math.floor(Math.random() * COLS), y: Math.floor(Math.random() * ROWS) }`
of lines 82-85, as a function of the two numbers that `Math.random` returns. -/
def randomCell (r : ℚ × ℚ) : Cell :=
  ⟨⌊r.1 * (COLS : ℚ)⌋, ⌊r.2 * (ROWS : ℚ)⌋⟩

/-- What `Math.random` can return, twice: two numbers at least 0 and below 1. -/
def isRandomPair (r : ℚ × ℚ) : Prop := 0 ≤ r.1 ∧ r.1 < 1 ∧ 0 ≤ r.2 ∧ r.2 < 1

instance (r : ℚ × ℚ) : Decidable (isRandomPair r) := by unfold isRandomPair; infer_instance

/-- The states the program can be in, with the randomness at its source: each
handled event receives the pairs of numbers that `Math.random` returns to the
iterations of `placeFood`, and the drawn cells are computed from them by
`randomCell`. Nothing is assumed of the drawn cells themselves. -/
inductive ReachableRandom : GameState → Prop where
  | boot (loadedHighScore : Int) (randoms : List (ℚ × ℚ)) (s : GameState)
      (hr : ∀ r ∈ randoms, isRandomPair r)
      (h : init loadedHighScore (randoms.map randomCell) = .ok s) : ReachableRandom s
  | next (s s' : GameState) (e : Event) (randoms : List (ℚ × ℚ))
      (hs : ReachableRandom s) (hr : ∀ r ∈ randoms, isRandomPair r)
      (h : step s e (randoms.map randomCell) = .ok s') : ReachableRandom s'

/-! ## Further concrete states -/

/-- The first five events of `fiveMeals`: started, four food items eaten. -/
def fourMeals : List (Event × List Cell) := fiveMeals.take 5

/-- The state at the end of the run `fourMeals`: score 4, food right ahead. -/
def scoreFourState : GameState :=
  { snake := [⟨14, 10⟩, ⟨13, 10⟩, ⟨12, 10⟩, ⟨11, 10⟩, ⟨10, 10⟩, ⟨9, 10⟩, ⟨8, 10⟩],
    direction := DIR.RIGHT, nextDirection := DIR.RIGHT, food := ⟨15, 10⟩, score := 4,
    highScore := 4, speedLevel := 1, running := true, paused := false, gameOver := false,
    lastTick := 600, tickInterval := 150 }

/-- The state right after `init` with stored high score 0 when `Math.random`
returns 0.995 twice: the food is drawn in the last column and the last row. -/
def cornerFoodState : GameState :=
  { freshState with food := ⟨19, 19⟩ }

/-- The state right after `init` when the stored high score is -1 and the first
draw is the cell (0, 0). -/
def negativeHighState : GameState :=
  { snake := [⟨10, 10⟩, ⟨9, 10⟩, ⟨8, 10⟩], direction := DIR.RIGHT, nextDirection := DIR.RIGHT,
    food := ⟨0, 0⟩, score := 0, highScore := -1, speedLevel := 1, running := false,
    paused := false, gameOver := false, lastTick := 0, tickInterval := 150 }

/-- The fresh game after Space: running. -/
def runningState : GameState :=
  { freshState with running := true }

/-- The running game after the pause key. -/
def pausedState : GameState :=
  { freshState with running := true, paused := true }

/-- A run from the fresh game into the right wall: Space, then ten ticks; the
tenth finds the head at (19, 10). -/
def intoTheWall : List (Event × List Cell) :=
  [(.key .Space, [⟨0, 0⟩]), (.frame 150, []), (.frame 300, []), (.frame 450, []),
   (.frame 600, []), (.frame 750, []), (.frame 900, []), (.frame 1050, []),
   (.frame 1200, []), (.frame 1350, []), (.frame 1500, [])]

/-- The state at the end of the run `intoTheWall`: game over. -/
def gameOverState : GameState :=
  { snake := [⟨19, 10⟩, ⟨18, 10⟩, ⟨17, 10⟩], direction := DIR.RIGHT, nextDirection := DIR.RIGHT,
    food := ⟨0, 0⟩, score := 0, highScore := 0, speedLevel := 1, running := false,
    paused := false, gameOver := true, lastTick := 1500, tickInterval := 150 }

/-! ## Basic facts -/

theorem occupies_iff (snake : List Cell) (pos : Cell) : occupies snake pos = true ↔ pos ∈ snake := by
  unfold occupies
  rw [List.any_eq_true]
  constructor
  · rintro ⟨c, hc, h⟩
    have hxy : c.x = pos.x ∧ c.y = pos.y := by simpa using h
    have : c = pos := by
      cases c; cases pos; simp_all
    exact this ▸ hc
  · intro h
    exact ⟨pos, h, by simp⟩

theorem occupies_eq_false_iff (snake : List Cell) (pos : Cell) :
    occupies snake pos = false ↔ pos ∉ snake := by
  rw [← occupies_iff, Bool.not_eq_true]

theorem opposite_iff (a b : Cell) : opposite a b = true ↔ a.x + b.x = 0 ∧ a.y + b.y = 0 := by
  simp [opposite]

theorem keyMap_dir (code : KeyCode) (r : Cell) (h : keyMap code = some r) :
    r = DIR.UP ∨ r = DIR.DOWN ∨ r = DIR.LEFT ∨ r = DIR.RIGHT := by
  cases code <;> simp [keyMap] at h <;> simp [← h]

/-! ## What each function does, case by case -/

theorem placeFoodLoop_ok (snake draws : List Cell) (f : Cell)
    (h : placeFoodLoop snake draws = .ok f) : f ∈ draws ∧ f ∉ snake := by
  induction draws with
  | nil => simp [placeFoodLoop] at h
  | cons pos rest ih =>
    unfold placeFoodLoop at h
    by_cases hocc : occupies snake pos = true
    · rw [if_pos hocc] at h
      exact ⟨List.mem_cons_of_mem _ (ih h).1, (ih h).2⟩
    · rw [if_neg hocc] at h
      have hf : pos = f := by simpa using h
      subst hf
      refine ⟨List.mem_cons_self _ _, ?_⟩
      rw [← occupies_iff]
      exact hocc

theorem placeFoodLoop_returns (snake draws : List Cell) :
    (∃ f, placeFoodLoop snake draws = .ok f) ↔ ∃ d ∈ draws, d ∉ snake := by
  constructor
  · rintro ⟨f, hf⟩
    exact ⟨f, placeFoodLoop_ok snake draws f hf⟩
  · rintro ⟨d, hd, hfree⟩
    induction draws with
    | nil => simp at hd
    | cons pos rest ih =>
      unfold placeFoodLoop
      by_cases hocc : occupies snake pos = true
      · rw [if_pos hocc]
        rcases List.mem_cons.1 hd with h | h
        · exact absurd ((occupies_iff snake pos).1 hocc) (h ▸ hfree)
        · exact ih h
      · rw [if_neg hocc]
        exact ⟨pos, rfl⟩

theorem placeFood_ok (s s' : GameState) (draws : List Cell) :
    placeFood s draws = .ok s' ↔
      ∃ f, placeFoodLoop s.snake draws = .ok f ∧ s' = { s with food := f } := by
  unfold placeFood
  cases h : placeFoodLoop s.snake draws with
  | error e => simp
  | ok f =>
    simp only [Except.ok.injEq]
    constructor
    · intro h1
      exact ⟨f, rfl, h1.symm⟩
    · rintro ⟨g, hg, h1⟩
      rw [h1, hg]

theorem eat_eq (s : GameState) (draws : List Cell) : eat s draws = placeFood (fed s) draws := by
  unfold eat fed
  by_cases h1 : s.score + 1 > s.highScore <;>
    by_cases h2 : (s.score + 1).tmod PTS_PER_LVL = 0 <;> simp [h1, h2]

theorem update_nil (s : GameState) (draws : List Cell) (hs : s.snake = []) :
    update s draws = .error .typeError := by
  simp [update, hs]

theorem update_collide (s : GameState) (draws : List Cell) (s0 : Cell) (rest : List Cell)
    (hs : s.snake = s0 :: rest)
    (hc : hitsWall (advance s0 s.nextDirection) = true ∨ advance s0 s.nextDirection ∈ s.snake) :
    update s draws =
      .ok { s with direction := s.nextDirection, gameOver := true, running := false } := by
  by_cases hw : hitsWall (advance s0 s.nextDirection) = true
  · simp [update, hs, hw, endGame]
  · have hin : occupies (s0 :: rest) (advance s0 s.nextDirection) = true := by
      rw [occupies_iff, ← hs]
      exact hc.resolve_left hw
    simp [update, hs, hw, hin, endGame]

theorem update_move (s : GameState) (draws : List Cell) (s0 : Cell) (rest : List Cell)
    (hs : s.snake = s0 :: rest)
    (hw : hitsWall (advance s0 s.nextDirection) = false)
    (hfree : advance s0 s.nextDirection ∉ s.snake)
    (hfood : advance s0 s.nextDirection ≠ s.food) :
    update s draws =
      .ok { s with direction := s.nextDirection,
                   snake := advance s0 s.nextDirection :: (s0 :: rest).dropLast } := by
  have hout : occupies (s0 :: rest) (advance s0 s.nextDirection) = false := by
    rw [occupies_eq_false_iff, ← hs]
    exact hfree
  have hne : ¬ ((advance s0 s.nextDirection).x = s.food.x ∧
      (advance s0 s.nextDirection).y = s.food.y) := by
    rintro ⟨hx, hy⟩
    apply hfood
    cases hf : s.food
    cases ha : advance s0 s.nextDirection
    simp_all
  simp [update, hs, hw, hout, hne]

theorem update_eat (s : GameState) (draws : List Cell) (s0 : Cell) (rest : List Cell)
    (hs : s.snake = s0 :: rest)
    (hw : hitsWall (advance s0 s.nextDirection) = false)
    (hfree : advance s0 s.nextDirection ∉ s.snake)
    (hfood : advance s0 s.nextDirection = s.food) :
    update s draws =
      placeFood (fed { s with direction := s.nextDirection,
                              snake := advance s0 s.nextDirection :: s0 :: rest }) draws := by
  have hout : occupies (s0 :: rest) (advance s0 s.nextDirection) = false := by
    rw [occupies_eq_false_iff, ← hs]
    exact hfree
  have hx : (advance s0 s.nextDirection).x = s.food.x := by rw [hfood]
  have hy : (advance s0 s.nextDirection).y = s.food.y := by rw [hfood]
  simp [update, hs, hw, hout, hx, hy, eat_eq]

theorem update_eat_ok (s : GameState) (draws : List Cell) (s0 f : Cell) (rest : List Cell)
    (hs : s.snake = s0 :: rest)
    (hw : hitsWall (advance s0 s.nextDirection) = false)
    (hfree : advance s0 s.nextDirection ∉ s.snake)
    (hfood : advance s0 s.nextDirection = s.food)
    (hf : placeFoodLoop (advance s0 s.nextDirection :: s0 :: rest) draws = .ok f) :
    update s draws =
      .ok { fed { s with direction := s.nextDirection,
                         snake := advance s0 s.nextDirection :: s0 :: rest } with food := f } := by
  rw [update_eat s draws s0 rest hs hw hfree hfood, placeFood_ok]
  exact ⟨f, hf, rfl⟩

/-- The three ways a tick can complete. -/
theorem update_cases (s s' : GameState) (draws : List Cell) (h : update s draws = .ok s') :
    ∃ s0 rest, s.snake = s0 :: rest ∧
      (((hitsWall (advance s0 s.nextDirection) = true ∨ advance s0 s.nextDirection ∈ s.snake) ∧
          s' = { s with direction := s.nextDirection, gameOver := true, running := false }) ∨
        (hitsWall (advance s0 s.nextDirection) = false ∧ advance s0 s.nextDirection ∉ s.snake ∧
          advance s0 s.nextDirection ≠ s.food ∧
          s' = { s with direction := s.nextDirection,
                        snake := advance s0 s.nextDirection :: (s0 :: rest).dropLast }) ∨
        (hitsWall (advance s0 s.nextDirection) = false ∧ advance s0 s.nextDirection ∉ s.snake ∧
          advance s0 s.nextDirection = s.food ∧
          ∃ f, f ∈ draws ∧ f ∉ advance s0 s.nextDirection :: s.snake ∧
            s' = { fed { s with direction := s.nextDirection,
                                snake := advance s0 s.nextDirection :: s0 :: rest } with
                   food := f })) := by
  have hsn : s.snake = [] ∨ ∃ s0 rest, s.snake = s0 :: rest := by
    cases s.snake with
    | nil => exact Or.inl rfl
    | cons a l => exact Or.inr ⟨a, l, rfl⟩
  rcases hsn with hs | ⟨s0, rest, hs⟩
  · rw [update_nil s draws hs] at h; cases h
  · refine ⟨s0, rest, hs, ?_⟩
    by_cases hc : hitsWall (advance s0 s.nextDirection) = true ∨ advance s0 s.nextDirection ∈ s.snake
    · rw [update_collide s draws s0 rest hs hc] at h
      left
      exact ⟨hc, (Except.ok.inj h).symm⟩
    · have hw : hitsWall (advance s0 s.nextDirection) = false := by
        cases hh : hitsWall (advance s0 s.nextDirection)
        · rfl
        · exact absurd (Or.inl hh) hc
      have hfree : advance s0 s.nextDirection ∉ s.snake := fun hin => hc (Or.inr hin)
      right
      by_cases hfood : advance s0 s.nextDirection = s.food
      · right
        rw [update_eat s draws s0 rest hs hw hfree hfood, placeFood_ok] at h
        obtain ⟨f, hf, hs'⟩ := h
        have hok := placeFoodLoop_ok _ _ _ hf
        refine ⟨hw, hfree, hfood, f, hok.1, ?_, hs'⟩
        have h2 := hok.2
        simpa [fed, hs] using h2
      · left
        rw [update_move s draws s0 rest hs hw hfree hfood] at h
        exact ⟨hw, hfree, hfood, (Except.ok.inj h).symm⟩

/-- The ways a handled event can change the state. -/
theorem step_cases (s s' : GameState) (e : Event) (draws : List Cell)
    (h : step s e draws = .ok s') :
    s' = s ∨
    (∃ s1, resetGame s draws = .ok s1 ∧ s' = { s1 with running := true }) ∨
    (s.running = true ∧ s.gameOver = false ∧ s' = { s with paused := !s.paused }) ∨
    (∃ r, isDir r ∧ opposite r s.direction = false ∧ s' = { s with nextDirection := r }) ∨
    (∃ t, s.running = true ∧ s.paused = false ∧ s.gameOver = false ∧
      t - s.lastTick ≥ s.tickInterval ∧ update { s with lastTick := t } draws = .ok s') := by
  cases e with
  | key code =>
    simp only [step, keydown] at h
    split at h
    · split at h
      · split at h
        · cases h
        · rename_i s1 hs1
          right; left
          exact ⟨s1, hs1, (Except.ok.inj h).symm⟩
      · left; exact (Except.ok.inj h).symm
    · split at h
      · rename_i hp
        right; right; left
        exact ⟨hp.2.1, hp.2.2, (Except.ok.inj h).symm⟩
      · split at h
        · rename_i dir hdir
          split at h
          · rename_i hopp
            right; right; right; left
            refine ⟨dir, keyMap_dir code dir hdir, by simpa using hopp, (Except.ok.inj h).symm⟩
          · left; exact (Except.ok.inj h).symm
        · left; exact (Except.ok.inj h).symm
  | frame t =>
    simp only [step, loop] at h
    split at h
    · rename_i hg
      split at h
      · rename_i ht
        right; right; right; right
        simp only [Bool.and_eq_true, Bool.not_eq_true'] at hg
        exact ⟨t, hg.1.1, hg.1.2, hg.2, ht, h⟩
      · left; exact (Except.ok.inj h).symm
    · left; exact (Except.ok.inj h).symm

theorem resetGame_ok (s s' : GameState) (draws : List Cell) (h : resetGame s draws = .ok s') :
    ∃ f, f ∈ draws ∧ f ∉ [(⟨10, 10⟩ : Cell), ⟨9, 10⟩, ⟨8, 10⟩] ∧
      s' = { snake := [⟨10, 10⟩, ⟨9, 10⟩, ⟨8, 10⟩], direction := DIR.RIGHT,
             nextDirection := DIR.RIGHT, food := f, score := 0, highScore := s.highScore,
             speedLevel := 1, running := false, paused := false, gameOver := false,
             lastTick := 0, tickInterval := 150 } := by
  unfold resetGame at h
  rw [placeFood_ok] at h
  obtain ⟨f, hf, hs'⟩ := h
  have hok := placeFoodLoop_ok _ _ _ hf
  refine ⟨f, hok.1, ?_, ?_⟩
  · have h2 := hok.2
    simpa [COLS, canvasWidth, GRID] using h2
  · rw [hs']
    simp [COLS, canvasWidth, GRID, BASE_TICK]

/-- An invariant of reset, of the key handler and of the tick holds in every
reachable state. -/
theorem Reachable.invariant (P : GameState → Prop)
    (hreset : ∀ s s' draws, resetGame s draws = .ok s' → P s')
    (hstart : ∀ s, P s → P { s with running := true })
    (hpause : ∀ s, P s → P { s with paused := !s.paused })
    (hdir : ∀ s r, P s → isDir r → opposite r s.direction = false →
      P { s with nextDirection := r })
    (htick : ∀ s t s' draws, P s → s.gameOver = false →
      update { s with lastTick := t } draws = .ok s' → P s')
    (s : GameState) (h : Reachable s) : P s := by
  induction h with
  | boot hs draws s _ h => exact hreset _ _ _ h
  | next s s' e draws _ _ h ih =>
    rcases step_cases s s' e draws h with h1 | ⟨s1, hs1, h1⟩ | ⟨_, _, h1⟩ | ⟨r, hr, ho, h1⟩ |
      ⟨t, _, _, hg, _, hu⟩
    · rw [h1]; exact ih
    · rw [h1]; exact hstart _ (hreset _ _ _ hs1)
    · rw [h1]; exact hpause _ ih
    · rw [h1]; exact hdir _ _ ih hr ho
    · exact htick s t s' draws ih hg hu

/-! ## C1: the direction-key handler -/

/-- C1: for every state and every direction key (a key that `keyMap` sends to a
direction `r`), the key handler completes and changes no variable other than
`nextDirection`; `nextDirection` becomes `r` exactly when `r` is not the opposite
of the committed `direction` (the two vectors do not sum to zero) and keeps its
value otherwise; whether `r` is taken does not depend on the value
`nextDirection` had. -/
theorem keydown_direction (s : GameState) (code : KeyCode) (r : Cell) (draws : List Cell)
    (hk : keyMap code = some r) :
    (r = DIR.UP ∨ r = DIR.DOWN ∨ r = DIR.LEFT ∨ r = DIR.RIGHT) ∧
    (opposite r s.direction = true ↔ r.x + s.direction.x = 0 ∧ r.y + s.direction.y = 0) ∧
    keydown s code draws =
      .ok { s with nextDirection := if opposite r s.direction then s.nextDirection else r } ∧
    ∀ pending : Cell, keydown { s with nextDirection := pending } code draws =
      .ok { s with nextDirection := if opposite r s.direction then pending else r } := by
  refine ⟨keyMap_dir code r hk, opposite_iff _ _, ?_, ?_⟩
  · cases code <;> simp [keyMap] at hk <;> subst hk <;>
      cases hopp : opposite _ s.direction <;> simp [keydown, keyMap, hopp]
  · intro pending
    cases code <;> simp [keyMap] at hk <;> subst hk <;>
      cases hopp : opposite _ s.direction <;> simp [keydown, keyMap, hopp]

/-- Witness for C1 (reversal rejection): with committed direction Right, the
Left arrow leaves the state as it was. -/
theorem keydown_direction_witness :
    keyMap KeyCode.ArrowLeft = some DIR.LEFT ∧
    keydown freshState KeyCode.ArrowLeft [] = .ok freshState :=
  ⟨rfl, (keydown_direction freshState KeyCode.ArrowLeft DIR.LEFT [] rfl).2.2.1⟩

/-! ## C2: no reversal into the neck -/

theorem isDir_not_opposite_self (d : Cell) (h : isDir d) : opposite d d = false := by
  rcases h with h | h | h | h <;> subst h <;> decide

theorem neckInv_update (s s' : GameState) (draws : List Cell) (hinv : NeckInv s)
    (hg : s.gameOver = false) (h : update s draws = .ok s') : NeckInv s' := by
  obtain ⟨hnd, hneck⟩ := hinv
  obtain ⟨hd, n, tl, hsn, _, _⟩ := hneck hg
  obtain ⟨s0, rest, hs, hcase⟩ := update_cases s s' draws h
  have h0 : s0 = hd ∧ rest = n :: tl := by
    rw [hsn] at hs
    simpa [eq_comm] using hs
  obtain ⟨h0a, h0b⟩ := h0
  subst h0a h0b
  rcases hcase with ⟨_, hs'⟩ | ⟨_, _, _, hs'⟩ | ⟨_, _, _, f, _, _, hs'⟩
  · subst hs'
    exact ⟨hnd, fun hgo => by simp at hgo⟩
  · subst hs'
    refine ⟨hnd, fun _ => ⟨advance s0 s.nextDirection, s0, (n :: tl).dropLast, ?_, rfl, ?_⟩⟩
    · simp [List.dropLast]
    · exact isDir_not_opposite_self _ hnd
  · subst hs'
    exact ⟨hnd, fun _ => ⟨advance s0 s.nextDirection, s0, n :: tl, rfl, rfl,
      isDir_not_opposite_self _ hnd⟩⟩

theorem neckInv_reachable (s : GameState) (h : Reachable s) : NeckInv s := by
  refine Reachable.invariant NeckInv ?_ ?_ ?_ ?_ ?_ s h
  · intro s s' draws hr
    obtain ⟨f, _, _, hs'⟩ := resetGame_ok s s' draws hr
    subst hs'
    exact ⟨Or.inr (Or.inr (Or.inr rfl)), fun _ => ⟨⟨10, 10⟩, ⟨9, 10⟩, [⟨8, 10⟩], rfl, rfl, rfl⟩⟩
  · intro s hs
    exact hs
  · intro s hs
    exact hs
  · intro s r hs hr hopp
    refine ⟨hr, fun hg => ?_⟩
    obtain ⟨hd, n, tl, hsn, hadv, _⟩ := hs.2 hg
    exact ⟨hd, n, tl, hsn, hadv, hopp⟩
  · intro s t s' draws hs hg hu
    exact neckInv_update { s with lastTick := t } s' draws hs hg hu

theorem freshState_reachable : Reachable freshState :=
  Reachable.boot 0 [⟨0, 0⟩] freshState (by decide) rfl

/-- C2: in every reachable state in which the game is not over (the frame loop
runs `update` in no other state), the snake has a head and a second cell, and the
head that `update` would compute, `snake[0] + nextDirection`, is not the second
cell `snake[1]`. -/
theorem no_reverse_into_neck (s : GameState) (hr : Reachable s) (hg : s.gameOver = false) :
    ∃ s0 s1 rest, s.snake = s0 :: s1 :: rest ∧ advance s0 s.nextDirection ≠ s1 := by
  obtain ⟨_, hneck⟩ := neckInv_reachable s hr
  obtain ⟨hd, n, tl, hsn, hadv, hopp⟩ := hneck hg
  refine ⟨hd, n, tl, hsn, ?_⟩
  intro heq
  have hx : s.nextDirection.x + s.direction.x = 0 := by
    have := congrArg Cell.x heq
    rw [hadv] at this
    simp only [advance] at this
    omega
  have hy : s.nextDirection.y + s.direction.y = 0 := by
    have := congrArg Cell.y heq
    rw [hadv] at this
    simp only [advance] at this
    omega
  have : opposite s.nextDirection s.direction = true := (opposite_iff _ _).2 ⟨hx, hy⟩
  rw [hopp] at this
  cases this

/-- Witness for C2: the freshly reset game. -/
theorem no_reverse_into_neck_witness :
    Reachable freshState ∧ freshState.gameOver = false ∧
    ∃ s0 s1 rest, freshState.snake = s0 :: s1 :: rest ∧
      advance s0 freshState.nextDirection ≠ s1 :=
  ⟨freshState_reachable, rfl, no_reverse_into_neck freshState freshState_reachable rfl⟩

/-! ## C3: when a tick ends the game -/

theorem hitsWall_iff (c : Cell) :
    hitsWall c = true ↔ c.x < 0 ∨ c.x ≥ 20 ∨ c.y < 0 ∨ c.y ≥ 20 := by
  simp [hitsWall, COLS, ROWS, canvasWidth, canvasHeight, GRID, or_assoc]

theorem hitsWall_eq_false_iff (c : Cell) :
    hitsWall c = false ↔ 0 ≤ c.x ∧ c.x < 20 ∧ 0 ≤ c.y ∧ c.y < 20 := by
  rw [← Bool.not_eq_true, hitsWall_iff]
  omega

theorem collision_iff (s : GameState) (c : Cell) :
    (hitsWall c = true ∨ c ∈ s.snake) ↔
      (c.x < 0 ∨ c.x ≥ 20 ∨ c.y < 0 ∨ c.y ≥ 20 ∨ c ∈ s.snake) := by
  rw [hitsWall_iff]
  tauto

/-- C3: for every state with `gameOver` false and a snake with head `s0`, the tick
sets `gameOver` exactly when the new head `s0 + nextDirection` is outside the
20 by 20 grid or is a cell of the snake as it is before the move: a tick that
completes ends with `gameOver` true if and only if that holds; when it holds the
tick does complete, with `gameOver` true; when it does not hold the tick
completes with `gameOver` false as soon as no food is eaten or some draw is a
free cell. The snake before the move includes its last cell: a new head equal
to the tail cell ends the game. -/
theorem update_gameOver_iff (s : GameState) (draws : List Cell) (s0 : Cell) (rest : List Cell)
    (hg : s.gameOver = false) (hs : s.snake = s0 :: rest) :
    (∀ s', update s draws = .ok s' →
      (s'.gameOver = true ↔
        ((advance s0 s.nextDirection).x < 0 ∨ (advance s0 s.nextDirection).x ≥ 20 ∨
         (advance s0 s.nextDirection).y < 0 ∨ (advance s0 s.nextDirection).y ≥ 20 ∨
         advance s0 s.nextDirection ∈ s.snake))) ∧
    (((advance s0 s.nextDirection).x < 0 ∨ (advance s0 s.nextDirection).x ≥ 20 ∨
      (advance s0 s.nextDirection).y < 0 ∨ (advance s0 s.nextDirection).y ≥ 20 ∨
      advance s0 s.nextDirection ∈ s.snake) →
      ∃ s', update s draws = .ok s' ∧ s'.gameOver = true) ∧
    (¬ ((advance s0 s.nextDirection).x < 0 ∨ (advance s0 s.nextDirection).x ≥ 20 ∨
        (advance s0 s.nextDirection).y < 0 ∨ (advance s0 s.nextDirection).y ≥ 20 ∨
        advance s0 s.nextDirection ∈ s.snake) →
      (advance s0 s.nextDirection ≠ s.food ∨
        ∃ d ∈ draws, d ∉ advance s0 s.nextDirection :: s.snake) →
      ∃ s', update s draws = .ok s' ∧ s'.gameOver = false) ∧
    (s.snake.getLast? = some (advance s0 s.nextDirection) →
      ∃ s', update s draws = .ok s' ∧ s'.gameOver = true) := by
  have hcol : ∀ hc : hitsWall (advance s0 s.nextDirection) = true ∨
      advance s0 s.nextDirection ∈ s.snake, ∃ s', update s draws = .ok s' ∧ s'.gameOver = true :=
    fun hc => ⟨_, update_collide s draws s0 rest hs hc, rfl⟩
  refine ⟨?_, ?_, ?_, ?_⟩
  · intro s' h
    rw [← collision_iff]
    obtain ⟨a, l, hs2, hcase⟩ := update_cases s s' draws h
    have ha : a = s0 := by
      rw [hs] at hs2
      exact (List.cons.inj hs2).1.symm
    subst ha
    rcases hcase with ⟨hc, hs'⟩ | ⟨hw, hfree, _, hs'⟩ | ⟨hw, hfree, _, f, _, _, hs'⟩
    · subst hs'
      exact ⟨fun _ => hc, fun _ => rfl⟩
    · subst hs'
      constructor
      · intro hgo
        rw [hg] at hgo
        cases hgo
      · rintro (hc | hc)
        · rw [hw] at hc; cases hc
        · exact absurd hc hfree
    · subst hs'
      constructor
      · intro hgo
        simp only [fed] at hgo
        rw [hg] at hgo
        cases hgo
      · rintro (hc | hc)
        · rw [hw] at hc; cases hc
        · exact absurd hc hfree
  · intro hc
    exact hcol ((collision_iff s _).2 hc)
  · intro hnc hret
    rw [← collision_iff] at hnc
    have hw : hitsWall (advance s0 s.nextDirection) = false := by
      cases hh : hitsWall (advance s0 s.nextDirection)
      · rfl
      · exact absurd (Or.inl hh) hnc
    have hfree : advance s0 s.nextDirection ∉ s.snake := fun hin => hnc (Or.inr hin)
    by_cases hfood : advance s0 s.nextDirection = s.food
    · have hd : ∃ d ∈ draws, d ∉ advance s0 s.nextDirection :: s.snake :=
        hret.resolve_left (fun hne => hne hfood)
      rw [hs] at hd
      obtain ⟨f, hf⟩ := (placeFoodLoop_returns _ draws).2 hd
      exact ⟨_, update_eat_ok s draws s0 f rest hs hw hfree hfood hf, by simpa [fed] using hg⟩
    · exact ⟨_, update_move s draws s0 rest hs hw hfree hfood, hg⟩
  · intro hlast
    exact hcol (Or.inr (List.mem_of_getLast?_eq_some hlast))

/-- Witness for C3: the U-shaped snake turning into its own tail cell. -/
theorem update_gameOver_iff_witness :
    tailBiteState.gameOver = false ∧
    tailBiteState.snake = ⟨5, 5⟩ :: [⟨5, 6⟩, ⟨6, 6⟩, ⟨6, 5⟩] ∧
    tailBiteState.snake.getLast? = some (advance ⟨5, 5⟩ tailBiteState.nextDirection) ∧
    ∃ s', update tailBiteState [] = .ok s' ∧ s'.gameOver = true :=
  ⟨rfl, rfl, rfl, (update_gameOver_iff tailBiteState [] ⟨5, 5⟩ [⟨5, 6⟩, ⟨6, 6⟩, ⟨6, 5⟩]
    rfl rfl).2.2.2 rfl⟩

/-! ## C4: a colliding tick changes nothing but the flags -/

/-- C4: for every state whose snake has head `s0`: if the new head
`s0 + nextDirection` is outside the grid or on the snake, the tick completes and
its result is the state before the tick with `gameOver` true, `running` false
and `direction` set to the pending direction; snake, food, score, high score,
speed level and tick interval are as before. In particular a head at (19, 10)
moving Right ends the game with the snake and the score unchanged. -/
theorem update_collision_atomic (s : GameState) (draws : List Cell) (s0 : Cell)
    (rest : List Cell) (hs : s.snake = s0 :: rest) :
    (((advance s0 s.nextDirection).x < 0 ∨ (advance s0 s.nextDirection).x ≥ 20 ∨
      (advance s0 s.nextDirection).y < 0 ∨ (advance s0 s.nextDirection).y ≥ 20 ∨
      advance s0 s.nextDirection ∈ s.snake) →
      update s draws =
        .ok { s with direction := s.nextDirection, gameOver := true, running := false } ∧
      ∃ s', update s draws = .ok s' ∧ s'.snake = s.snake ∧ s'.food = s.food ∧
        s'.score = s.score ∧ s'.highScore = s.highScore ∧ s'.speedLevel = s.speedLevel ∧
        s'.tickInterval = s.tickInterval ∧ s'.gameOver = true ∧ s'.running = false ∧
        s'.direction = s.nextDirection ∧ s'.nextDirection = s.nextDirection ∧
        s'.paused = s.paused ∧ s'.lastTick = s.lastTick) ∧
    (s0 = ⟨19, 10⟩ → s.nextDirection = DIR.RIGHT →
      ∃ s', update s draws = .ok s' ∧ s'.gameOver = true ∧ s'.running = false ∧
        s'.snake = s.snake ∧ s'.score = s.score) := by
  have hgen : ∀ hc : hitsWall (advance s0 s.nextDirection) = true ∨
      advance s0 s.nextDirection ∈ s.snake,
      update s draws =
        .ok { s with direction := s.nextDirection, gameOver := true, running := false } :=
    fun hc => update_collide s draws s0 rest hs hc
  constructor
  · intro hc
    have hu := hgen ((collision_iff s _).2 hc)
    exact ⟨hu, _, hu, rfl, rfl, rfl, rfl, rfl, rfl, rfl, rfl, rfl, rfl, rfl, rfl⟩
  · intro h0 hnd
    have hw : hitsWall (advance s0 s.nextDirection) = true := by
      rw [h0, hnd]
      rfl
    exact ⟨_, hgen (Or.inl hw), rfl, rfl, rfl, rfl⟩

/-- Witness for C4 (Scenario B): the head in the rightmost column moving right. -/
theorem update_collision_atomic_witness :
    wallState.snake = ⟨19, 10⟩ :: [⟨18, 10⟩, ⟨17, 10⟩] ∧
    ∃ s', update wallState [] = .ok s' ∧ s'.gameOver = true ∧ s'.running = false ∧
      s'.snake = wallState.snake ∧ s'.score = wallState.score :=
  ⟨rfl, (update_collision_atomic wallState [] ⟨19, 10⟩ [⟨18, 10⟩, ⟨17, 10⟩] rfl).2 rfl rfl⟩

/-! ## C5: an eating tick grows the snake by one -/

/-- C5: for every state whose new head `s0 + nextDirection` is inside the grid,
is not on the snake and is the food cell: the tick is `placeFood` run from a
state whose snake is the new head followed by the whole snake of before and
whose score is one higher; every completed tick leaves the snake equal to the
new head followed by the whole snake of before (one cell longer, none dropped)
and the score one higher; and the tick completes exactly when some draw of
`placeFood` is a cell off the grown snake. -/
theorem update_eat_grows (s : GameState) (draws : List Cell) (s0 : Cell) (rest : List Cell)
    (hs : s.snake = s0 :: rest)
    (hin : 0 ≤ (advance s0 s.nextDirection).x ∧ (advance s0 s.nextDirection).x < 20 ∧
      0 ≤ (advance s0 s.nextDirection).y ∧ (advance s0 s.nextDirection).y < 20)
    (hfree : advance s0 s.nextDirection ∉ s.snake)
    (hfood : advance s0 s.nextDirection = s.food) :
    (∃ mid : GameState, mid.snake = advance s0 s.nextDirection :: s.snake ∧
      mid.score = s.score + 1 ∧ update s draws = placeFood mid draws) ∧
    (∀ s', update s draws = .ok s' →
      s'.snake = advance s0 s.nextDirection :: s.snake ∧
      s'.snake.length = s.snake.length + 1 ∧ s'.score = s.score + 1) ∧
    ((∃ s', update s draws = .ok s') ↔
      ∃ d ∈ draws, d ∉ advance s0 s.nextDirection :: s.snake) := by
  have hw := (hitsWall_eq_false_iff _).2 hin
  have hu := update_eat s draws s0 rest hs hw hfree hfood
  refine ⟨⟨_, ?_, ?_, hu⟩, ?_, ?_⟩
  · simp [fed, hs]
  · simp [fed]
  · intro s' h
    rw [hu, placeFood_ok] at h
    obtain ⟨f, _, hs'⟩ := h
    subst hs'
    simp [fed, hs]
  · rw [hu, hs, ← placeFoodLoop_returns]
    constructor
    · rintro ⟨s', h⟩
      rw [placeFood_ok] at h
      obtain ⟨f, hf, _⟩ := h
      exact ⟨f, by simpa [fed] using hf⟩
    · rintro ⟨f, hf⟩
      exact ⟨_, (placeFood_ok _ _ _).2 ⟨f, by simpa [fed] using hf, rfl⟩⟩

/-- Witness for C5 (Scenario C): food right ahead of the head; the first draw
(11, 10) is the new head and is rejected, the second draw (3, 4) is taken. -/
theorem update_eat_grows_witness :
    foodAheadState.snake = ⟨10, 10⟩ :: [⟨9, 10⟩, ⟨8, 10⟩] ∧
    advance ⟨10, 10⟩ foodAheadState.nextDirection = foodAheadState.food ∧
    update foodAheadState [⟨11, 10⟩, ⟨3, 4⟩] =
      .ok { foodAheadState with snake := [⟨11, 10⟩, ⟨10, 10⟩, ⟨9, 10⟩, ⟨8, 10⟩], score := 1,
                                highScore := 1, food := ⟨3, 4⟩ } ∧
    ∀ s', update foodAheadState [⟨11, 10⟩, ⟨3, 4⟩] = .ok s' →
      s'.snake = advance ⟨10, 10⟩ foodAheadState.nextDirection :: foodAheadState.snake ∧
      s'.snake.length = foodAheadState.snake.length + 1 ∧ s'.score = foodAheadState.score + 1 :=
  ⟨rfl, rfl, rfl, (update_eat_grows foodAheadState [⟨11, 10⟩, ⟨3, 4⟩] ⟨10, 10⟩ [⟨9, 10⟩, ⟨8, 10⟩]
    rfl (by decide) (by decide) rfl).2.1⟩

/-! ## C6: a plain move -/

/-- C6: for every state whose new head `s0 + nextDirection` is inside the grid,
is not on the snake and is not the food cell, the tick completes and its result
is the state before the tick with `direction` set to the pending direction and
the snake replaced by the new head followed by the old snake without its last
cell, which has the old length; score, high score, speed level, tick interval,
food and `gameOver` are as before. In particular the snake
[(10,10),(9,10),(8,10)] moving Right with no food at (11,10) becomes
[(11,10),(10,10),(9,10)] with the score unchanged. -/
theorem update_plain_move (s : GameState) (draws : List Cell) (s0 : Cell) (rest : List Cell)
    (hs : s.snake = s0 :: rest) :
    ((0 ≤ (advance s0 s.nextDirection).x ∧ (advance s0 s.nextDirection).x < 20 ∧
      0 ≤ (advance s0 s.nextDirection).y ∧ (advance s0 s.nextDirection).y < 20) →
      advance s0 s.nextDirection ∉ s.snake → advance s0 s.nextDirection ≠ s.food →
      update s draws =
        .ok { s with direction := s.nextDirection,
                     snake := advance s0 s.nextDirection :: s.snake.dropLast } ∧
      ∃ s', update s draws = .ok s' ∧
        s'.snake = advance s0 s.nextDirection :: s.snake.dropLast ∧
        s'.snake.length = s.snake.length ∧ s'.score = s.score ∧
        s'.highScore = s.highScore ∧ s'.speedLevel = s.speedLevel ∧
        s'.tickInterval = s.tickInterval ∧ s'.food = s.food ∧ s'.gameOver = s.gameOver) ∧
    (s.snake = [⟨10, 10⟩, ⟨9, 10⟩, ⟨8, 10⟩] → s.nextDirection = DIR.RIGHT →
      s.food ≠ ⟨11, 10⟩ →
      ∃ s', update s draws = .ok s' ∧ s'.snake = [⟨11, 10⟩, ⟨10, 10⟩, ⟨9, 10⟩] ∧
        s'.score = s.score) := by
  have hgen : hitsWall (advance s0 s.nextDirection) = false →
      advance s0 s.nextDirection ∉ s.snake → advance s0 s.nextDirection ≠ s.food →
      update s draws =
        .ok { s with direction := s.nextDirection,
                     snake := advance s0 s.nextDirection :: s.snake.dropLast } := by
    intro hw hfree hfood
    rw [update_move s draws s0 rest hs hw hfree hfood, hs]
  constructor
  · intro hin hfree hfood
    have hu := hgen ((hitsWall_eq_false_iff _).2 hin) hfree hfood
    refine ⟨hu, _, hu, rfl, ?_, rfl, rfl, rfl, rfl, rfl, rfl⟩
    simp [hs]
  · intro hsn hnd hfood
    have h0 : s0 = ⟨10, 10⟩ := by
      rw [hs] at hsn
      exact (List.cons.inj hsn).1
    have hadv : advance s0 s.nextDirection = ⟨11, 10⟩ := by
      rw [h0, hnd]
      rfl
    have hu := hgen (by rw [hadv]; rfl) (by rw [hadv, hsn]; decide)
      (by rw [hadv]; exact fun h => hfood h.symm)
    refine ⟨_, hu, ?_, rfl⟩
    simp [hadv, hsn]

/-- Witness for C6 (Scenario A): one tick of the fresh game. -/
theorem update_plain_move_witness :
    freshState.snake = ⟨10, 10⟩ :: [⟨9, 10⟩, ⟨8, 10⟩] ∧
    freshState.nextDirection = DIR.RIGHT ∧ freshState.food ≠ ⟨11, 10⟩ ∧
    ∃ s', update freshState [] = .ok s' ∧ s'.snake = [⟨11, 10⟩, ⟨10, 10⟩, ⟨9, 10⟩] ∧
      s'.score = freshState.score :=
  ⟨rfl, rfl, by decide, (update_plain_move freshState [] ⟨10, 10⟩ [⟨9, 10⟩, ⟨8, 10⟩] rfl).2
    rfl rfl (by decide)⟩

/-! ## C7: food is placed off the snake -/

/-- C7: whenever `placeFood` completes, the cell it assigns to `food` is one of
its draws and is no cell of the snake as it is at the call, and nothing else is
changed; it completes exactly when some draw is off the snake. In `resetGame`
that snake is the 3-cell starting snake, and in an eating tick it is the grown
snake, new head included. -/
theorem placeFood_avoids_snake :
    (∀ (s s' : GameState) (draws : List Cell), placeFood s draws = .ok s' →
      s'.food ∈ draws ∧ s'.food ∉ s.snake ∧ s' = { s with food := s'.food }) ∧
    (∀ (s : GameState) (draws : List Cell),
      (∃ s', placeFood s draws = .ok s') ↔ ∃ d ∈ draws, d ∉ s.snake) ∧
    (∀ (s s' : GameState) (draws : List Cell), resetGame s draws = .ok s' →
      s'.snake = [⟨10, 10⟩, ⟨9, 10⟩, ⟨8, 10⟩] ∧ s'.food ∉ s'.snake) ∧
    (∀ (s s' : GameState) (draws : List Cell) (s0 : Cell) (rest : List Cell),
      s.snake = s0 :: rest → hitsWall (advance s0 s.nextDirection) = false →
      advance s0 s.nextDirection ∉ s.snake → advance s0 s.nextDirection = s.food →
      update s draws = .ok s' →
      s'.snake = advance s0 s.nextDirection :: s.snake ∧ s'.food ∉ s'.snake) := by
  refine ⟨?_, ?_, ?_, ?_⟩
  · intro s s' draws h
    rw [placeFood_ok] at h
    obtain ⟨f, hf, hs'⟩ := h
    have hok := placeFoodLoop_ok _ _ _ hf
    subst hs'
    exact ⟨hok.1, hok.2, rfl⟩
  · intro s draws
    rw [← placeFoodLoop_returns]
    constructor
    · rintro ⟨s', h⟩
      rw [placeFood_ok] at h
      obtain ⟨f, hf, _⟩ := h
      exact ⟨f, hf⟩
    · rintro ⟨f, hf⟩
      exact ⟨_, (placeFood_ok _ _ _).2 ⟨f, hf, rfl⟩⟩
  · intro s s' draws h
    obtain ⟨f, _, hfree, hs'⟩ := resetGame_ok s s' draws h
    subst hs'
    exact ⟨rfl, hfree⟩
  · intro s s' draws s0 rest hs hw hfree hfood h
    rw [update_eat s draws s0 rest hs hw hfree hfood, placeFood_ok] at h
    obtain ⟨f, hf, hs'⟩ := h
    have hok := placeFoodLoop_ok _ _ _ hf
    subst hs'
    refine ⟨by simp [fed, hs], ?_⟩
    have h2 := hok.2
    simpa [fed] using h2

/-- Witness for C7: in the eating tick of Scenario C the draw (11, 10), the new
head, is passed over, and the food lands on the next draw, off the grown snake. -/
theorem placeFood_avoids_snake_witness :
    update foodAheadState [⟨11, 10⟩, ⟨3, 4⟩] =
      .ok { foodAheadState with snake := [⟨11, 10⟩, ⟨10, 10⟩, ⟨9, 10⟩, ⟨8, 10⟩], score := 1,
                                highScore := 1, food := ⟨3, 4⟩ } ∧
    (⟨3, 4⟩ : Cell) ∉ [(⟨11, 10⟩ : Cell), ⟨10, 10⟩, ⟨9, 10⟩, ⟨8, 10⟩] :=
  ⟨rfl, (placeFood_avoids_snake.2.2.2 foodAheadState _ [⟨11, 10⟩, ⟨3, 4⟩] ⟨10, 10⟩
    [⟨9, 10⟩, ⟨8, 10⟩] rfl rfl (by decide) rfl rfl).2⟩

/-! ## C8: the snake is non-empty and has no repeated cell -/

theorem nodup_update (s s' : GameState) (draws : List Cell) (hn : s.snake.Nodup)
    (h : update s draws = .ok s') : s'.snake ≠ [] ∧ s'.snake.Nodup := by
  obtain ⟨s0, rest, hs, hcase⟩ := update_cases s s' draws h
  rcases hcase with ⟨_, hs'⟩ | ⟨_, hfree, _, hs'⟩ | ⟨_, hfree, _, f, _, _, hs'⟩
  · subst hs'
    exact ⟨by simp [hs], hn⟩
  · subst hs'
    refine ⟨by simp, ?_⟩
    have hsub : (advance s0 s.nextDirection :: (s0 :: rest).dropLast).Sublist
        (advance s0 s.nextDirection :: s.snake) := by
      rw [hs]
      exact (List.dropLast_sublist _).cons₂ _
    exact (List.nodup_cons.2 ⟨hfree, hn⟩).sublist hsub
  · subst hs'
    refine ⟨by simp [fed], ?_⟩
    have : (advance s0 s.nextDirection :: s0 :: rest).Nodup := by
      rw [← hs]
      exact List.nodup_cons.2 ⟨hfree, hn⟩
    simpa [fed] using this

theorem nodup_reachable (s : GameState) (h : Reachable s) : s.snake ≠ [] ∧ s.snake.Nodup := by
  refine Reachable.invariant (fun s => s.snake ≠ [] ∧ s.snake.Nodup) ?_ ?_ ?_ ?_ ?_ s h
  · intro s s' draws hr
    obtain ⟨f, _, _, hs'⟩ := resetGame_ok s s' draws hr
    subst hs'
    refine ⟨by simp, ?_⟩
    show ([⟨10, 10⟩, ⟨9, 10⟩, ⟨8, 10⟩] : List Cell).Nodup
    decide
  · intro s hs
    exact hs
  · intro s hs
    exact hs
  · intro s r hs _ _
    exact hs
  · intro s t s' draws hs _ hu
    exact nodup_update { s with lastTick := t } s' draws hs.2 hu

/-- C8: in every reachable state the snake is non-empty and no cell occurs in it
twice; equivalently its length is the number of distinct cells in it. -/
theorem snake_nonempty_nodup (s : GameState) (hr : Reachable s) :
    s.snake ≠ [] ∧ s.snake.Nodup ∧ s.snake.length = s.snake.toFinset.card := by
  obtain ⟨hne, hnd⟩ := nodup_reachable s hr
  exact ⟨hne, hnd, (List.toFinset_card_of_nodup hnd).symm⟩

/-- Witness for C8: the freshly reset game. -/
theorem snake_nonempty_nodup_witness :
    Reachable freshState ∧ freshState.snake ≠ [] ∧ freshState.snake.Nodup ∧
    freshState.snake.length = freshState.snake.toFinset.card :=
  ⟨freshState_reachable, snake_nonempty_nodup freshState freshState_reachable⟩

/-! ## Score, level and interval across a tick; counting runs -/

theorem speed_update (s s' : GameState) (draws : List Cell) (h : update s draws = .ok s') :
    (s'.score = s.score ∧ s'.speedLevel = s.speedLevel ∧ s'.tickInterval = s.tickInterval ∧
      eats s = false) ∨
    (s'.score = s.score + 1 ∧ eats s = true ∧
      ((s.score + 1).tmod 5 = 0 ∧ s'.speedLevel = s.speedLevel + 1 ∧
          s'.tickInterval = max 50 (150 - (s.speedLevel + 1) * 8) ∨
        (s.score + 1).tmod 5 ≠ 0 ∧ s'.speedLevel = s.speedLevel ∧
          s'.tickInterval = s.tickInterval)) := by
  obtain ⟨s0, rest, hs, hcase⟩ := update_cases s s' draws h
  rcases hcase with ⟨hc, hs'⟩ | ⟨hw, hfree, hfood, hs'⟩ | ⟨hw, hfree, hfood, f, _, _, hs'⟩
  · subst hs'
    refine Or.inl ⟨rfl, rfl, rfl, ?_⟩
    rcases hc with hc | hc
    · simp [eats, hs, hc]
    · have := (occupies_iff _ _).2 hc
      rw [hs] at this
      simp [eats, hs, this]
  · subst hs'
    refine Or.inl ⟨rfl, rfl, rfl, ?_⟩
    simp [eats, hs, hfood]
  · subst hs'
    have hocc := (occupies_eq_false_iff _ _).2 hfree
    rw [hs] at hocc
    have hw2 : hitsWall s.food = false := hfood ▸ hw
    have hocc2 : occupies (s0 :: rest) s.food = false := hfood ▸ hocc
    refine Or.inr ⟨rfl, by simp [eats, hs, hw2, hocc2, hfood], ?_⟩
    by_cases hm : (s.score + 1).tmod 5 = 0
    · exact Or.inl ⟨hm, by simp [fed, PTS_PER_LVL, hm], by
        simp [fed, PTS_PER_LVL, hm, BASE_TICK, SPEED_UP]⟩
    · exact Or.inr ⟨hm, by simp [fed, PTS_PER_LVL, hm], by simp [fed, PTS_PER_LVL, hm]⟩

theorem loop_eq (s : GameState) (t : Int) (draws : List Cell) :
    loop s t draws = if tickDue s t then update { s with lastTick := t } draws else .ok s := by
  unfold loop tickDue
  by_cases hg : (s.running && !s.paused && !s.gameOver) = true
  · by_cases ht : t - s.lastTick ≥ s.tickInterval <;> simp [hg, ht]
  · simp [hg]

theorem keydown_score (s s' : GameState) (code : KeyCode) (draws : List Cell)
    (h : keydown s code draws = .ok s') :
    s'.score = if restarts s code then 0 else s.score := by
  simp only [keydown] at h
  split at h
  · rename_i hc
    have hk : (decide (code = .Space) || decide (code = .Enter)) = true := by simpa using hc
    split at h
    · rename_i hr
      split at h
      · cases h
      · rename_i s1 hs1
        obtain ⟨f, _, _, h1⟩ := resetGame_ok s s1 draws hs1
        have h2 := (Except.ok.inj h).symm
        subst h2 h1
        simp [restarts, hk, hr]
    · rename_i hr
      have h2 := (Except.ok.inj h).symm
      subst h2
      simp [restarts, hr]
  · rename_i hc
    have hk : (decide (code = .Space) || decide (code = .Enter)) = false := by simpa using hc
    have hno : restarts s code = false := by simp [restarts, hk]
    rw [hno]
    split at h
    · have h2 := (Except.ok.inj h).symm
      subst h2
      rfl
    · split at h
      · split at h <;>
        · have h2 := (Except.ok.inj h).symm
          subst h2
          rfl
      · have h2 := (Except.ok.inj h).symm
        subst h2
        rfl

theorem eaten_step (s s' : GameState) (e : Event) (draws : List Cell) (n : Nat)
    (hn : s.score = n) (h : step s e draws = .ok s') : s'.score = (eatenAfter s e n : Nat) := by
  cases e with
  | key code =>
    have hk := keydown_score s s' code draws h
    simp only [eatenAfter]
    by_cases hr : restarts s code = true
    · simp [hk, hr]
    · simp [hk, hr, hn]
  | frame t =>
    simp only [step, loop_eq] at h
    simp only [eatenAfter]
    by_cases hdue : tickDue s t = true
    · rw [if_pos hdue] at h
      have he : eats { s with lastTick := t } = eats s := rfl
      rcases speed_update _ s' draws h with ⟨h1, _, _, h4⟩ | ⟨h1, h4, _⟩
      · rw [he] at h4
        simp [h1, h4, hn]
      · rw [he] at h4
        simp [h1, h4, hn, hdue]
    · rw [if_neg hdue] at h
      have h2 := (Except.ok.inj h).symm
      subst h2
      simp [hdue, hn]

theorem reachableEaten_score (s : GameState) (n : Nat) (h : ReachableEaten s n) :
    s.score = n := by
  induction h with
  | boot hs draws s _ h =>
    obtain ⟨f, _, _, hs'⟩ := resetGame_ok _ s draws h
    subst hs'
    rfl
  | next s s' e draws n _ _ h ih => exact eaten_step s s' e draws n ih h

theorem reachableEaten_reachable (s : GameState) (n : Nat) (h : ReachableEaten s n) :
    Reachable s := by
  induction h with
  | boot hs draws s hd h => exact Reachable.boot hs draws s hd h
  | next s s' e draws n _ hd h ih => exact Reachable.next s s' e draws ih hd h

theorem reachable_reachableEaten (s : GameState) (h : Reachable s) :
    ∃ n, ReachableEaten s n := by
  induction h with
  | boot hs draws s hd h => exact ⟨0, ReachableEaten.boot hs draws s hd h⟩
  | next s s' e draws _ hd h ih =>
    obtain ⟨n, hn⟩ := ih
    exact ⟨_, ReachableEaten.next s s' e draws n hn hd h⟩

theorem runFrom_reachableEaten (evs : List (Event × List Cell)) (s s' : GameState) (n n' : Nat)
    (hs : ReachableEaten s n) (hd : ∀ p ∈ evs, ∀ d ∈ p.2, inGrid d)
    (h : runFrom s n evs = .ok (s', n')) : ReachableEaten s' n' := by
  induction evs generalizing s n with
  | nil =>
    simp only [runFrom, Except.ok.injEq, Prod.mk.injEq] at h
    obtain ⟨h1, h2⟩ := h
    subst h1 h2
    exact hs
  | cons p rest ih =>
    obtain ⟨e, draws⟩ := p
    simp only [runFrom] at h
    split at h
    · cases h
    · rename_i s1 hs1
      exact ih s1 _ (ReachableEaten.next s s1 e draws n hs (hd (e, draws) (List.mem_cons_self _ _))
        hs1) (fun q hq => hd q (List.mem_cons_of_mem _ hq)) h

theorem levelTwoState_reachableEaten : ReachableEaten levelTwoState 5 :=
  runFrom_reachableEaten fiveMeals freshState levelTwoState 0 5
    (ReachableEaten.boot 0 [⟨0, 0⟩] freshState (by decide) rfl) (by decide) rfl

theorem levelTwoState_reachable : Reachable levelTwoState :=
  reachableEaten_reachable levelTwoState 5 levelTwoState_reachableEaten

theorem scoreFourState_reachable : Reachable scoreFourState :=
  reachableEaten_reachable scoreFourState 4
    (runFrom_reachableEaten fourMeals freshState scoreFourState 0 4
      (ReachableEaten.boot 0 [⟨0, 0⟩] freshState (by decide) rfl) (by decide) rfl)

/-! ## C9: the tick interval at speed level 1 -/

/-- Counterexample for C9: right after a reset the speed level is 1 and the tick
interval is 150, while `max(50, 150 - 1*8)` is 142. -/
theorem tickInterval_formula_fails_at_level_one :
    Reachable freshState ∧ freshState.speedLevel = 1 ∧ freshState.tickInterval = 150 ∧
    max 50 (150 - freshState.speedLevel * 8) = 142 ∧
    freshState.tickInterval ≠ max 50 (150 - freshState.speedLevel * 8) :=
  ⟨freshState_reachable, rfl, rfl, by decide, by decide⟩

/-- C9 (amended): in every reachable state the speed level is at least 1, and
while it is 1 (no speed-up since the last reset) the tick interval is 150, the
base interval. Nothing is said of the interval at higher speed levels. -/
theorem tickInterval_at_level_one (s : GameState) (hr : Reachable s) :
    1 ≤ s.speedLevel ∧ (s.speedLevel = 1 → s.tickInterval = 150) := by
  refine Reachable.invariant
    (fun s => 1 ≤ s.speedLevel ∧ (s.speedLevel = 1 → s.tickInterval = 150)) ?_ ?_ ?_ ?_ ?_ s hr
  · intro s s' draws h
    obtain ⟨f, _, _, hs'⟩ := resetGame_ok s s' draws h
    subst hs'
    exact ⟨le_refl _, fun _ => rfl⟩
  · intro s hs
    exact hs
  · intro s hs
    exact hs
  · intro s r hs _ _
    exact hs
  · intro s t s' draws hs _ hu
    obtain ⟨h1, hone⟩ := hs
    rcases speed_update _ s' draws hu with ⟨_, h2, h3, _⟩ | ⟨_, _, ⟨_, h2, _⟩ | ⟨_, h2, h3⟩⟩
    · rw [h2, h3]; exact ⟨h1, hone⟩
    · rw [h2]
      have h1a : 1 ≤ s.speedLevel := h1
      refine ⟨by show 1 ≤ s.speedLevel + 1; omega, fun h => ?_⟩
      have h' : s.speedLevel + 1 = 1 := h
      omega
    · rw [h2, h3]; exact ⟨h1, hone⟩

/-- Witness for C9 (amended): after the run `fourMeals` the game is still at
level 1, and the interval is still 150. -/
theorem tickInterval_at_level_one_witness :
    Reachable scoreFourState ∧ scoreFourState.speedLevel = 1 ∧
    scoreFourState.tickInterval = 150 :=
  ⟨scoreFourState_reachable, rfl,
    (tickInterval_at_level_one scoreFourState scoreFourState_reachable).2 rfl⟩

/-! ## C10: the speed level as a function of the score -/

theorem speedLevel_reachable (s : GameState) (h : Reachable s) :
    0 ≤ s.score ∧ s.speedLevel = 1 + s.score / 5 := by
  refine Reachable.invariant (fun s => 0 ≤ s.score ∧ s.speedLevel = 1 + s.score / 5)
    ?_ ?_ ?_ ?_ ?_ s h
  · intro s s' draws h
    obtain ⟨f, _, _, hs'⟩ := resetGame_ok s s' draws h
    subst hs'
    exact ⟨le_refl _, rfl⟩
  · intro s hs
    exact hs
  · intro s hs
    exact hs
  · intro s r hs _ _
    exact hs
  · intro s t s' draws hs _ hu
    obtain ⟨h0, hsl⟩ := hs
    have h0a : 0 ≤ ({ s with lastTick := t } : GameState).score := h0
    have hsla : ({ s with lastTick := t } : GameState).speedLevel =
        1 + ({ s with lastTick := t } : GameState).score / 5 := hsl
    generalize ({ s with lastTick := t } : GameState) = u at hu h0a hsla
    have hmod : (u.score + 1).tmod 5 = (u.score + 1) % 5 :=
      Int.tmod_eq_emod (by omega) (by omega)
    rcases speed_update u s' draws hu with ⟨h1, h2, _, _⟩ | ⟨h1, _, ⟨hm, h2, _⟩ | ⟨hm, h2, _⟩⟩
    · rw [h1, h2]
      exact ⟨h0a, hsla⟩
    · rw [hmod] at hm
      rw [h1, h2]
      constructor <;> omega
    · rw [hmod] at hm
      rw [h1, h2]
      constructor <;> omega

/-- C10: in every reachable state the score is non-negative and the speed level
is `1 + floor(score / 5)`; the state is reached by a run with some count `n` of
food items eaten since the last reset, and for every such count the score is
`n`, so that `n = 5 * k` gives speed level `1 + k`. -/
theorem speedLevel_law (s : GameState) (hr : Reachable s) :
    0 ≤ s.score ∧ s.speedLevel = 1 + s.score / 5 ∧
    (∃ n, ReachableEaten s n) ∧
    ∀ n, ReachableEaten s n → s.score = n ∧ ∀ k : Nat, n = 5 * k → s.speedLevel = 1 + k := by
  obtain ⟨h0, hsl⟩ := speedLevel_reachable s hr
  refine ⟨h0, hsl, reachable_reachableEaten s hr, ?_⟩
  intro n hn
  have hsc := reachableEaten_score s n hn
  refine ⟨hsc, ?_⟩
  intro k hk
  rw [hsl, hsc, hk]
  push_cast
  omega

/-- Witness for C10: after the run `fiveMeals`, in which 5 = 5 * 1 food items are
eaten, the speed level is 1 + 1. -/
theorem speedLevel_law_witness :
    Reachable levelTwoState ∧ ReachableEaten levelTwoState 5 ∧
    levelTwoState.speedLevel = 1 + ((1 : Nat) : Int) :=
  ⟨levelTwoState_reachable, levelTwoState_reachableEaten,
    ((speedLevel_law levelTwoState levelTwoState_reachable).2.2.2 5
      levelTwoState_reachableEaten).2 1 rfl⟩

/-! ## Further case analyses shared by the later results -/

theorem keydown_cases (s s' : GameState) (code : KeyCode) (draws : List Cell)
    (h : keydown s code draws = .ok s') :
    (restarts s code = true ∧ (code = .Space ∨ code = .Enter) ∧
      ∃ s1, resetGame s draws = .ok s1 ∧ s' = { s1 with running := true }) ∨
    (restarts s code = false ∧
      (s' = s ∨
       (code = .KeyP ∧ s.running = true ∧ s.gameOver = false ∧
          s' = { s with paused := !s.paused }) ∨
       (∃ r, keyMap code = some r ∧ opposite r s.direction = false ∧
          s' = { s with nextDirection := r }))) := by
  simp only [keydown] at h
  split at h
  · rename_i hc
    have hk : (decide (code = .Space) || decide (code = .Enter)) = true := by simpa using hc
    split at h
    · rename_i hr
      split at h
      · cases h
      · rename_i s1 hs1
        exact Or.inl ⟨by simp [restarts, hk, hr], hc, s1, hs1, (Except.ok.inj h).symm⟩
    · rename_i hr
      exact Or.inr ⟨by simp [restarts, hr], Or.inl (Except.ok.inj h).symm⟩
  · rename_i hc
    have hk : (decide (code = .Space) || decide (code = .Enter)) = false := by simpa using hc
    refine Or.inr ⟨by simp [restarts, hk], ?_⟩
    split at h
    · rename_i hp
      exact Or.inr (Or.inl ⟨hp.1, hp.2.1, hp.2.2, (Except.ok.inj h).symm⟩)
    · split at h
      · rename_i dir hdir
        split at h
        · rename_i hopp
          exact Or.inr (Or.inr ⟨dir, hdir, by simpa using hopp, (Except.ok.inj h).symm⟩)
        · exact Or.inl (Except.ok.inj h).symm
      · exact Or.inl (Except.ok.inj h).symm

theorem tickDue_iff (s : GameState) (t : Int) :
    tickDue s t = true ↔
      s.running = true ∧ s.paused = false ∧ s.gameOver = false ∧
        t - s.lastTick ≥ s.tickInterval := by
  simp [tickDue, and_assoc]

theorem eats_iff (s : GameState) :
    eats s = true ↔
      ∃ s0 rest, s.snake = s0 :: rest ∧ hitsWall (advance s0 s.nextDirection) = false ∧
        advance s0 s.nextDirection ∉ s.snake ∧ advance s0 s.nextDirection = s.food := by
  unfold eats
  cases hs : s.snake with
  | nil => simp
  | cons s0 rest =>
    simp only [Bool.and_eq_true, Bool.not_eq_true', decide_eq_true_eq, occupies_eq_false_iff]
    constructor
    · rintro ⟨⟨hw, hfree⟩, hfood⟩
      exact ⟨s0, rest, rfl, hw, hfree, hfood⟩
    · rintro ⟨a, l, hal, hw, hfree, hfood⟩
      obtain ⟨h1, h2⟩ := List.cons.inj hal
      subst h1 h2
      exact ⟨⟨hw, hfree⟩, hfood⟩

theorem update_eat_returns (s : GameState) (draws : List Cell) (s0 : Cell) (rest : List Cell)
    (hs : s.snake = s0 :: rest)
    (hw : hitsWall (advance s0 s.nextDirection) = false)
    (hfree : advance s0 s.nextDirection ∉ s.snake)
    (hfood : advance s0 s.nextDirection = s.food) :
    (∃ s', update s draws = .ok s') ↔
      ∃ d ∈ draws, d ∉ advance s0 s.nextDirection :: s.snake := by
  rw [hs, ← placeFoodLoop_returns]
  constructor
  · rintro ⟨s', h⟩
    obtain ⟨a, l, hal, hcase⟩ := update_cases s s' draws h
    rw [update_eat s draws s0 rest hs hw hfree hfood, placeFood_ok] at h
    obtain ⟨f, hf, _⟩ := h
    exact ⟨f, by simpa [fed] using hf⟩
  · rintro ⟨f, hf⟩
    exact ⟨_, update_eat_ok s draws s0 f rest hs hw hfree hfood hf⟩

/-- An invariant of reset, start, pause, direction keys and guarded ticks, with
draws inside the grid, holds in every reachable state. -/
theorem Reachable.invariant_guarded (P : GameState → Prop)
    (hreset : ∀ s s' draws, (∀ d ∈ draws, inGrid d) → resetGame s draws = .ok s' →
      P s' ∧ P { s' with running := true })
    (hpause : ∀ s, P s → s.running = true → s.gameOver = false →
      P { s with paused := !s.paused })
    (hdir : ∀ s r, P s → isDir r → opposite r s.direction = false →
      P { s with nextDirection := r })
    (htick : ∀ s t s' draws, P s → (∀ d ∈ draws, inGrid d) → s.running = true →
      s.paused = false → s.gameOver = false →
      update { s with lastTick := t } draws = .ok s' → P s')
    (s : GameState) (h : Reachable s) : P s := by
  induction h with
  | boot hs draws s hd h => exact (hreset _ _ _ hd h).1
  | next s s' e draws _ hd h ih =>
    rcases step_cases s s' e draws h with h1 | ⟨s1, hs1, h1⟩ | ⟨hr, hg, h1⟩ | ⟨r, hr, ho, h1⟩ |
      ⟨t, hr, hp, hg, _, hu⟩
    · rw [h1]; exact ih
    · rw [h1]; exact (hreset _ _ _ hd hs1).2
    · rw [h1]; exact hpause _ ih hr hg
    · rw [h1]; exact hdir _ _ ih hr ho
    · exact htick s t s' draws ih hd hr hp hg hu

theorem interval_level_reachable (s : GameState) (hr : Reachable s) :
    (s.speedLevel = 1 ∧ s.tickInterval = 150) ∨
    (2 ≤ s.speedLevel ∧ s.tickInterval = max 50 (150 - s.speedLevel * 8)) := by
  refine Reachable.invariant (fun s => (s.speedLevel = 1 ∧ s.tickInterval = 150) ∨
    (2 ≤ s.speedLevel ∧ s.tickInterval = max 50 (150 - s.speedLevel * 8))) ?_ ?_ ?_ ?_ ?_ s hr
  · intro s s' draws h
    obtain ⟨f, _, _, hs'⟩ := resetGame_ok s s' draws h
    subst hs'
    exact Or.inl ⟨rfl, rfl⟩
  · intro s hs
    exact hs
  · intro s hs
    exact hs
  · intro s r hs _ _
    exact hs
  · intro s t s' draws hs _ hu
    have hsl : 1 ≤ s.speedLevel := by
      rcases hs with h | h <;> omega
    rcases speed_update _ s' draws hu with ⟨_, h2, h3, _⟩ | ⟨_, _, ⟨_, h2, h3⟩ | ⟨_, h2, h3⟩⟩
    · rw [h2, h3]; exact hs
    · right
      rw [h2, h3]
      exact ⟨by show 2 ≤ s.speedLevel + 1; omega, rfl⟩
    · rw [h2, h3]; exact hs

/-! ## C11: the speed bump at score 5 -/

/-- C11 (the code at the failing input): from the reachable state with score 4,
speed level 1, interval 150 and the food right ahead, the frame at 750 ms runs
the tick that eats; the score reaches 5 and the speed level becomes 2, but the
tick interval becomes 134 and not the 142 that one step of `SPEED_UP` below
`BASE_TICK` gives. -/
theorem tickInterval_at_five_is_not_142 :
    Reachable scoreFourState ∧ scoreFourState.score = 4 ∧ scoreFourState.speedLevel = 1 ∧
    scoreFourState.tickInterval = 150 ∧ eats scoreFourState = true ∧
    loop scoreFourState 750 [⟨0, 0⟩] = .ok levelTwoState ∧ levelTwoState.score = 5 ∧
    levelTwoState.speedLevel = 2 ∧ levelTwoState.tickInterval = 134 ∧
    BASE_TICK - SPEED_UP = 142 ∧ levelTwoState.tickInterval ≠ 142 :=
  ⟨scoreFourState_reachable, rfl, rfl, rfl, rfl, rfl, rfl, rfl, rfl, by decide, by decide⟩

/-! ## C12: the tick interval never increases within a game -/

/-- C12: in every reachable state the tick interval lies between 50 and 150;
every completed tick from such a state leaves it less than or equal to what it
was; and so does every handled event, unless it is the restart key, whose reset
puts it back to 150. -/
theorem tickInterval_nonincreasing (s : GameState) (hr : Reachable s) :
    50 ≤ s.tickInterval ∧ s.tickInterval ≤ 150 ∧
    (∀ draws s', update s draws = .ok s' → s'.tickInterval ≤ s.tickInterval) ∧
    (∀ e draws s', step s e draws = .ok s' →
      s'.tickInterval ≤ s.tickInterval ∨
      (s'.tickInterval = 150 ∧ ∃ code, e = .key code ∧ restarts s code = true)) := by
  have hlaw := interval_level_reachable s hr
  have hb : 50 ≤ s.tickInterval ∧ s.tickInterval ≤ 150 := by
    rcases hlaw with ⟨_, h⟩ | ⟨h1, h⟩ <;> rw [h] <;> omega
  have hup : ∀ (u : GameState) draws s', u.speedLevel = s.speedLevel →
      u.tickInterval = s.tickInterval → update u draws = .ok s' →
      s'.tickInterval ≤ s.tickInterval := by
    intro u draws s' hu1 hu2 hu
    rcases speed_update u s' draws hu with ⟨_, _, h3, _⟩ | ⟨_, _, ⟨_, _, h3⟩ | ⟨_, _, h3⟩⟩
    · rw [h3, hu2]
    · rw [h3, hu1]
      rcases hlaw with ⟨h1, h⟩ | ⟨h1, h⟩ <;> rw [h] <;> omega
    · rw [h3, hu2]
  refine ⟨hb.1, hb.2, fun draws s' hu => hup s draws s' rfl rfl hu, ?_⟩
  intro e draws s' h
  cases e with
  | key code =>
    rcases keydown_cases s s' code draws h with ⟨hre, _, s1, hs1, h1⟩ |
      ⟨_, h1 | ⟨_, _, _, h1⟩ | ⟨r, _, _, h1⟩⟩
    · obtain ⟨f, _, _, h2⟩ := resetGame_ok s s1 draws hs1
      subst h1 h2
      exact Or.inr ⟨rfl, code, rfl, hre⟩
    · subst h1; exact Or.inl (le_refl _)
    · subst h1; exact Or.inl (le_refl _)
    · subst h1; exact Or.inl (le_refl _)
  | frame t =>
    simp only [step, loop_eq] at h
    by_cases hdue : tickDue s t = true
    · rw [if_pos hdue] at h
      exact Or.inl (hup { s with lastTick := t } draws s' rfl rfl h)
    · rw [if_neg hdue] at h
      have h2 := (Except.ok.inj h).symm
      subst h2
      exact Or.inl (le_refl _)

/-- Witness for C12: the fifth meal of the run `fiveMeals` lowers the interval
from 150 to 134. -/
theorem tickInterval_nonincreasing_witness :
    Reachable scoreFourState ∧
    update scoreFourState [⟨0, 0⟩] = .ok { levelTwoState with lastTick := 600 } ∧
    ({ levelTwoState with lastTick := 600 } : GameState).tickInterval ≤
      scoreFourState.tickInterval :=
  ⟨scoreFourState_reachable, rfl,
    (tickInterval_nonincreasing scoreFourState scoreFourState_reachable).2.2.1 [⟨0, 0⟩] _ rfl⟩

/-! ## C13: game over is left only by a full reset -/

theorem resetGame_returns (s : GameState) (draws : List Cell) :
    (∃ s', resetGame s draws = .ok s') ↔
      ∃ d ∈ draws, d ∉ [(⟨10, 10⟩ : Cell), ⟨9, 10⟩, ⟨8, 10⟩] := by
  rw [← placeFoodLoop_returns]
  unfold resetGame
  constructor
  · rintro ⟨s', h⟩
    rw [placeFood_ok] at h
    obtain ⟨f, hf, _⟩ := h
    exact ⟨f, by simpa [COLS, canvasWidth, GRID] using hf⟩
  · rintro ⟨f, hf⟩
    exact ⟨_, (placeFood_ok _ _ _).2 ⟨f, by simpa [COLS, canvasWidth, GRID] using hf, rfl⟩⟩

theorem keydown_dir_eq (s : GameState) (code : KeyCode) (r : Cell) (draws : List Cell)
    (hk : keyMap code = some r) :
    keydown s code draws =
      .ok { s with nextDirection := if opposite r s.direction then s.nextDirection else r } := by
  cases code <;> simp [keyMap] at hk <;> subst hk <;>
    cases hopp : opposite _ s.direction <;> simp [keydown, keyMap, hopp]

/-- C13: for every state with `gameOver` true: a frame of the loop with any
timestamp and the pause key return the state as it is; a direction key leaves
`gameOver` true and `running`, `paused`, snake, food, score and speed level as
they are; an event whose result has `gameOver` false is the Space or the Enter
key; and that key resets the game in full: 3-cell starting snake, both
directions Right, score 0, speed level 1, tick interval 150, not paused, not
over, running. The restart completes exactly when some draw is off the
starting snake. -/
theorem gameOver_left_only_by_reset (s : GameState) (hg : s.gameOver = true) :
    (∀ t draws, loop s t draws = .ok s) ∧
    (∀ draws, keydown s .KeyP draws = .ok s) ∧
    (∀ code r draws, keyMap code = some r →
      ∃ s', keydown s code draws = .ok s' ∧ s'.gameOver = true ∧ s'.running = s.running ∧
        s'.paused = s.paused ∧ s'.snake = s.snake ∧ s'.food = s.food ∧ s'.score = s.score ∧
        s'.speedLevel = s.speedLevel) ∧
    (∀ e draws s', step s e draws = .ok s' → s'.gameOver = false →
      e = .key .Space ∨ e = .key .Enter) ∧
    (∀ code draws s', code = .Space ∨ code = .Enter → keydown s code draws = .ok s' →
      s'.snake = [⟨10, 10⟩, ⟨9, 10⟩, ⟨8, 10⟩] ∧ s'.direction = DIR.RIGHT ∧
      s'.nextDirection = DIR.RIGHT ∧ s'.score = 0 ∧ s'.speedLevel = 1 ∧
      s'.tickInterval = 150 ∧ s'.paused = false ∧ s'.gameOver = false ∧ s'.running = true ∧
      s'.lastTick = 0 ∧ s'.highScore = s.highScore ∧ s'.food ∈ draws ∧ s'.food ∉ s'.snake) ∧
    (∀ code draws, code = .Space ∨ code = .Enter →
      ((∃ s', keydown s code draws = .ok s') ↔
        ∃ d ∈ draws, d ∉ [(⟨10, 10⟩ : Cell), ⟨9, 10⟩, ⟨8, 10⟩])) := by
  refine ⟨?_, ?_, ?_, ?_, ?_, ?_⟩
  · intro t draws
    simp [loop, hg]
  · intro draws
    simp [keydown, hg, keyMap]
  · intro code r draws hk
    exact ⟨_, keydown_dir_eq s code r draws hk, hg, rfl, rfl, rfl, rfl, rfl, rfl⟩
  · intro e draws s' h hgo
    cases e with
    | key code =>
      rcases keydown_cases s s' code draws h with ⟨_, hc, _⟩ |
        ⟨_, h1 | ⟨_, _, _, h1⟩ | ⟨r, _, _, h1⟩⟩
      · rcases hc with hc | hc <;> subst hc <;> simp
      · subst h1; rw [hg] at hgo; cases hgo
      · subst h1
        have : s.gameOver = false := hgo
        rw [hg] at this; cases this
      · subst h1
        have : s.gameOver = false := hgo
        rw [hg] at this; cases this
    | frame t =>
      have hl : loop s t draws = .ok s := by simp [loop, hg]
      simp only [step, hl] at h
      have h2 := (Except.ok.inj h).symm
      subst h2
      rw [hg] at hgo; cases hgo
  · intro code draws s' hc h
    have hre : restarts s code = true := by
      rcases hc with hc | hc <;> subst hc <;> simp [restarts, hg]
    rcases keydown_cases s s' code draws h with ⟨_, _, s1, hs1, h1⟩ | ⟨hno, _⟩
    · obtain ⟨f, hf, hfree, h2⟩ := resetGame_ok s s1 draws hs1
      subst h1 h2
      exact ⟨rfl, rfl, rfl, rfl, rfl, rfl, rfl, rfl, rfl, rfl, rfl, hf, hfree⟩
    · rw [hre] at hno; cases hno
  · intro code draws hc
    rw [← resetGame_returns s draws]
    have hk : keydown s code draws =
        match resetGame s draws with
        | .error f => .error f
        | .ok s1 => .ok { s1 with running := true } := by
      rcases hc with hc | hc <;> subst hc <;> simp [keydown, hg]
    rw [hk]
    constructor
    · rintro ⟨s', h⟩
      cases hr : resetGame s draws with
      | error f => rw [hr] at h; cases h
      | ok s1 => exact ⟨s1, rfl⟩
    · rintro ⟨s1, hs1⟩
      rw [hs1]
      exact ⟨_, rfl⟩

/-- Witness for C13: after running into the wall, Space resets the game. -/
theorem gameOver_left_only_by_reset_witness :
    gameOverState.gameOver = true ∧
    keydown gameOverState .Space [⟨0, 0⟩] = .ok runningState ∧
    runningState.snake = [⟨10, 10⟩, ⟨9, 10⟩, ⟨8, 10⟩] ∧ runningState.score = 0 ∧
    loop gameOverState 5000 [] = .ok gameOverState :=
  ⟨rfl, rfl, ((gameOver_left_only_by_reset gameOverState rfl).2.2.2.2.1 .Space [⟨0, 0⟩]
    runningState (Or.inl rfl) rfl).1, rfl, (gameOver_left_only_by_reset gameOverState rfl).1 _ _⟩

/-! ## C14: when a frame runs a tick -/

/-- C14: for every state and every timestamp `t`, a frame of the loop is the
tick run from the state with `lastTick` set to `t` when the game is running, not
paused, not over and `t - lastTick >= tickInterval`, and returns the state as it
is, `lastTick`, snake and direction included, in every other case; in
particular while paused. -/
theorem loop_ticks_iff_due (s : GameState) (t : Int) (draws : List Cell) :
    (tickDue s t = true ↔
      s.running = true ∧ s.paused = false ∧ s.gameOver = false ∧
        t - s.lastTick ≥ s.tickInterval) ∧
    ((s.running = true ∧ s.paused = false ∧ s.gameOver = false ∧
        t - s.lastTick ≥ s.tickInterval) →
      loop s t draws = update { s with lastTick := t } draws) ∧
    (¬ (s.running = true ∧ s.paused = false ∧ s.gameOver = false ∧
        t - s.lastTick ≥ s.tickInterval) →
      loop s t draws = .ok s) ∧
    (s.paused = true → loop s t draws = .ok s) := by
  refine ⟨tickDue_iff s t, ?_, ?_, ?_⟩
  · intro h
    rw [loop_eq, if_pos ((tickDue_iff s t).2 h)]
  · intro h
    rw [loop_eq, if_neg (fun hd => h ((tickDue_iff s t).1 hd))]
  · intro hp
    rw [loop_eq, if_neg]
    intro hd
    have := ((tickDue_iff s t).1 hd).2.1
    rw [hp] at this
    cases this

/-- Witness for C14: a frame 10 seconds on does nothing to the paused game, and
the frame at 750 ms is the eating tick of the running game with score 4. -/
theorem loop_ticks_iff_due_witness :
    pausedState.paused = true ∧ loop pausedState 10000 [] = .ok pausedState ∧
    loop scoreFourState 750 [⟨0, 0⟩] = update { scoreFourState with lastTick := 750 } [⟨0, 0⟩] :=
  ⟨rfl, (loop_ticks_iff_due pausedState 10000 []).2.2.2 rfl,
    (loop_ticks_iff_due scoreFourState 750 [⟨0, 0⟩]).2.1 (by decide)⟩

/-! ## C15: direction keys are buffered until the tick -/

theorem lastAccepted_cons (committed pending r : Cell) (requests : List Cell) :
    lastAccepted committed pending (r :: requests) =
      lastAccepted committed (if opposite r committed then pending else r) requests := by
  unfold lastAccepted
  cases hopp : opposite r committed
  · simp only [List.filter_cons, hopp, Bool.not_false, if_true, List.getLast?_cons,
      Option.getD_some, Bool.false_eq_true, if_false]
  · simp [List.filter_cons, hopp]

theorem keydowns_dir_eq (codes : List KeyCode) (s : GameState) (draws : List Cell)
    (hk : ∀ c ∈ codes, (keyMap c).isSome = true) :
    keydowns s draws codes =
      .ok { s with nextDirection :=
        lastAccepted s.direction s.nextDirection (codes.filterMap keyMap) } := by
  induction codes generalizing s with
  | nil => simp [keydowns, lastAccepted]
  | cons c rest ih =>
    obtain ⟨r, hr⟩ := Option.isSome_iff_exists.1 (hk c (List.mem_cons_self _ _))
    have hrest : ∀ c ∈ rest, (keyMap c).isSome = true :=
      fun c hc => hk c (List.mem_cons_of_mem _ hc)
    simp only [keydowns, keydown_dir_eq s c r draws hr, List.filterMap_cons, hr,
      lastAccepted_cons, ih _ hrest]

/-- C15: for every state and every finite sequence of direction keys: after any
initial part of the sequence the state is the one before the keys with only
`nextDirection` changed, to the last accepted request so far (the previous
`nextDirection` if none was accepted), so the committed `direction` and the snake
are untouched. The tick that follows the whole sequence commits that one
direction `L` and moves the head by it: with `s0` the head and `s0 + L` the new
head, on a wall or self collision it returns the state with `direction = L`,
the game over and the snake as it was; on a plain move it returns the state with
`direction = L` and the snake `s0 + L` followed by the old snake without its last
cell; on an eating move every completed tick has `direction = L` and the snake
`s0 + L` followed by the old snake, and the tick completes exactly when some
draw is off that snake. -/
theorem direction_keys_buffered (s : GameState) (draws : List Cell) (codes : List KeyCode)
    (hk : ∀ c ∈ codes, (keyMap c).isSome = true) :
    (∀ pre, pre <+: codes →
      keydowns s draws pre =
        .ok { s with nextDirection :=
          lastAccepted s.direction s.nextDirection (pre.filterMap keyMap) }) ∧
    (∀ pre, pre <+: codes → ∃ s1, keydowns s draws pre = .ok s1 ∧
      s1.direction = s.direction ∧ s1.snake = s.snake) ∧
    (∀ s1 tickDraws s', keydowns s draws codes = .ok s1 → update s1 tickDraws = .ok s' →
      s'.direction = lastAccepted s.direction s.nextDirection (codes.filterMap keyMap) ∧
      ∃ s0 rest, s.snake = s0 :: rest ∧
        ((s'.snake = s.snake ∧ s'.gameOver = true) ∨
          s'.snake.head? = some (advance s0
            (lastAccepted s.direction s.nextDirection (codes.filterMap keyMap))))) ∧
    (∀ (L s0 : Cell) (rest tickDraws : List Cell),
      L = lastAccepted s.direction s.nextDirection (codes.filterMap keyMap) →
      s.snake = s0 :: rest →
      ∃ s1, keydowns s draws codes = .ok s1 ∧
        ((hitsWall (advance s0 L) = true ∨ advance s0 L ∈ s.snake) →
          update s1 tickDraws =
            .ok { s with nextDirection := L, direction := L, gameOver := true,
                         running := false }) ∧
        (hitsWall (advance s0 L) = false → advance s0 L ∉ s.snake → advance s0 L ≠ s.food →
          update s1 tickDraws =
            .ok { s with nextDirection := L, direction := L,
                         snake := advance s0 L :: s.snake.dropLast }) ∧
        (hitsWall (advance s0 L) = false → advance s0 L ∉ s.snake → advance s0 L = s.food →
          (∀ s', update s1 tickDraws = .ok s' →
            s'.direction = L ∧ s'.snake = advance s0 L :: s.snake ∧
            s'.gameOver = s.gameOver) ∧
          ((∃ s', update s1 tickDraws = .ok s') ↔
            ∃ d ∈ tickDraws, d ∉ advance s0 L :: s.snake))) := by
  have hpre : ∀ pre, pre <+: codes →
      keydowns s draws pre =
        .ok { s with nextDirection :=
          lastAccepted s.direction s.nextDirection (pre.filterMap keyMap) } :=
    fun pre hp => keydowns_dir_eq pre s draws (fun c hc => hk c (hp.subset hc))
  refine ⟨hpre, fun pre hp => ⟨_, hpre pre hp, rfl, rfl⟩, ?_, ?_⟩
  · intro s1 tickDraws s' h1 hu
    rw [hpre codes (List.prefix_refl _)] at h1
    have h2 := (Except.ok.inj h1).symm
    subst h2
    obtain ⟨s0, rest, hs, hcase⟩ := update_cases _ s' tickDraws hu
    rcases hcase with ⟨_, hs'⟩ | ⟨_, _, _, hs'⟩ | ⟨_, _, _, f, _, _, hs'⟩
    · subst hs'
      exact ⟨rfl, s0, rest, hs, Or.inl ⟨rfl, rfl⟩⟩
    · subst hs'
      exact ⟨rfl, s0, rest, hs, Or.inr rfl⟩
    · subst hs'
      exact ⟨rfl, s0, rest, hs, Or.inr rfl⟩
  · intro L s0 rest tickDraws hL hs
    refine ⟨{ s with nextDirection := L }, ?_, ?_, ?_, ?_⟩
    · rw [hL]
      exact hpre codes (List.prefix_refl _)
    · intro hc
      exact update_collide { s with nextDirection := L } tickDraws s0 rest hs hc
    · intro hw hfree hfood
      rw [update_move { s with nextDirection := L } tickDraws s0 rest hs hw hfree hfood, hs]
    · intro hw hfree hfood
      constructor
      · intro s' hu
        rw [update_eat { s with nextDirection := L } tickDraws s0 rest hs hw hfree hfood,
          placeFood_ok] at hu
        obtain ⟨f, _, hs'⟩ := hu
        subst hs'
        exact ⟨rfl, by simp [fed, hs], rfl⟩
      · exact update_eat_returns { s with nextDirection := L } tickDraws s0 rest hs hw hfree
          hfood

/-- Witness for C15: in the fresh game (committed Right) the keys Up, Left, Down
arrive before the tick; Left is refused, Down is the last accepted, and the tick
moves the head from (10, 10) down to (10, 11). -/
theorem direction_keys_buffered_witness :
    lastAccepted freshState.direction freshState.nextDirection
      ([KeyCode.ArrowUp, KeyCode.ArrowLeft, KeyCode.ArrowDown].filterMap keyMap) = DIR.DOWN ∧
    freshState.snake = ⟨10, 10⟩ :: [⟨9, 10⟩, ⟨8, 10⟩] ∧
    ∃ s1, keydowns freshState [] [.ArrowUp, .ArrowLeft, .ArrowDown] = .ok s1 ∧
      update s1 [] =
        .ok { freshState with nextDirection := DIR.DOWN, direction := DIR.DOWN,
                              snake := [⟨10, 11⟩, ⟨10, 10⟩, ⟨9, 10⟩] } := by
  obtain ⟨s1, h1, _, hmove, _⟩ :=
    (direction_keys_buffered freshState [] [.ArrowUp, .ArrowLeft, .ArrowDown]
      (by decide)).2.2.2 DIR.DOWN ⟨10, 10⟩ [⟨9, 10⟩, ⟨8, 10⟩] [] rfl rfl
  exact ⟨rfl, rfl, s1, h1, hmove rfl (by decide) (by decide)⟩

/-! ## C16: the high score -/

theorem highScore_update (s s' : GameState) (draws : List Cell) (h : update s draws = .ok s') :
    (eats s = false ∧ s'.score = s.score ∧ s'.highScore = s.highScore) ∨
    (eats s = true ∧ s'.score = s.score + 1 ∧ s'.highScore = max s.highScore (s.score + 1)) := by
  obtain ⟨s0, rest, hs, hcase⟩ := update_cases s s' draws h
  rcases speed_update s s' draws h with ⟨hsc, _, _, he⟩ | ⟨hsc, he, _⟩
  · left
    refine ⟨he, hsc, ?_⟩
    rcases hcase with ⟨_, hs'⟩ | ⟨_, _, _, hs'⟩ | ⟨hw, hfree, hfood, _⟩
    · subst hs'; rfl
    · subst hs'; rfl
    · have : eats s = true := (eats_iff s).2 ⟨s0, rest, hs, hw, hfree, hfood⟩
      rw [he] at this; cases this
  · right
    refine ⟨he, hsc, ?_⟩
    rcases hcase with ⟨_, hs'⟩ | ⟨_, _, _, hs'⟩ | ⟨_, _, _, f, _, _, hs'⟩
    · subst hs'
      simp at hsc
    · subst hs'
      simp at hsc
    · subst hs'
      show (if s.score + 1 > s.highScore then s.score + 1 else s.highScore) =
        max s.highScore (s.score + 1)
      split <;> omega

theorem keydown_highScore (s s' : GameState) (code : KeyCode) (draws : List Cell)
    (h : keydown s code draws = .ok s') : s'.highScore = s.highScore := by
  rcases keydown_cases s s' code draws h with ⟨_, _, s1, hs1, h1⟩ |
    ⟨_, h1 | ⟨_, _, _, h1⟩ | ⟨r, _, _, h1⟩⟩
  · obtain ⟨f, _, _, h2⟩ := resetGame_ok s s1 draws hs1
    subst h1 h2
    rfl
  · subst h1; rfl
  · subst h1; rfl
  · subst h1; rfl

theorem highScore_reachableFrom (loaded : Int) (s : GameState) (h0 : 0 ≤ loaded)
    (h : ReachableFrom loaded s) : s.score ≤ s.highScore ∧ loaded ≤ s.highScore := by
  induction h with
  | boot draws s _ h =>
    obtain ⟨f, _, _, hs'⟩ := resetGame_ok _ s draws h
    subst hs'
    exact ⟨h0, le_refl _⟩
  | next s s' e draws _ _ h ih =>
    cases e with
    | key code =>
      have hhs := keydown_highScore s s' code draws h
      have hsc := keydown_score s s' code draws h
      rw [hhs, hsc]
      refine ⟨?_, ih.2⟩
      split
      · exact le_trans h0 ih.2
      · exact ih.1
    | frame t =>
      simp only [step, loop_eq] at h
      by_cases hdue : tickDue s t = true
      · rw [if_pos hdue] at h
        have hu := highScore_update _ s' draws h
        have e1 : ({ s with lastTick := t } : GameState).score = s.score := rfl
        have e2 : ({ s with lastTick := t } : GameState).highScore = s.highScore := rfl
        rw [e1, e2] at hu
        rcases hu with ⟨_, h1, h2⟩ | ⟨_, h1, h2⟩
        · rw [h1, h2]; exact ih
        · rw [h1, h2]
          constructor <;> omega
      · rw [if_neg hdue] at h
        have h2 := (Except.ok.inj h).symm
        subst h2
        exact ih

theorem negativeHighState_reachable : Reachable negativeHighState :=
  Reachable.boot (-1) [⟨0, 0⟩] negativeHighState (by decide) rfl

/-- Counterexample for C16: with a stored high score of -1 the reset game has
score 0 above the high score; a plain move leaves the high score at -1, while
the maximum of the old high score and the new score is 0. -/
theorem highScore_is_not_max_on_plain_move :
    Reachable negativeHighState ∧
    update negativeHighState [] =
      .ok { negativeHighState with snake := [⟨11, 10⟩, ⟨10, 10⟩, ⟨9, 10⟩] } ∧
    ({ negativeHighState with snake := [⟨11, 10⟩, ⟨10, 10⟩, ⟨9, 10⟩] } : GameState).highScore
      = -1 ∧
    max negativeHighState.highScore
      ({ negativeHighState with snake := [⟨11, 10⟩, ⟨10, 10⟩, ⟨9, 10⟩] } : GameState).score
      = 0 :=
  ⟨negativeHighState_reachable, rfl, rfl, by decide⟩

/-- C16 (amended): the high score never decreases. For every state a completed
tick leaves it at least what it was: equal to the maximum of the old high score
and the new score when the tick eats the food or when the old high score is at
least the old score, and unchanged when the tick does not eat. `resetGame` and
every key event leave it unchanged. Starting from a loaded high score that is
not negative, every reachable state has the high score at least the score. -/
theorem highScore_never_decreases :
    (∀ (s s' : GameState) (draws : List Cell), update s draws = .ok s' →
      s.highScore ≤ s'.highScore ∧
      (eats s = true → s'.highScore = max s.highScore s'.score) ∧
      (eats s = false → s'.highScore = s.highScore) ∧
      (s.score ≤ s.highScore → s'.highScore = max s.highScore s'.score)) ∧
    (∀ (s s' : GameState) (draws : List Cell), resetGame s draws = .ok s' →
      s'.highScore = s.highScore) ∧
    (∀ (s s' : GameState) (code : KeyCode) (draws : List Cell),
      keydown s code draws = .ok s' → s'.highScore = s.highScore) ∧
    (∀ (loaded : Int) (s : GameState), 0 ≤ loaded → ReachableFrom loaded s →
      s.score ≤ s.highScore) := by
  refine ⟨?_, ?_, keydown_highScore, ?_⟩
  · intro s s' draws h
    rcases highScore_update s s' draws h with ⟨he, h1, h2⟩ | ⟨he, h1, h2⟩
    · refine ⟨by rw [h2], ?_, fun _ => h2, ?_⟩
      · intro het
        rw [he] at het; cases het
      · intro hle
        rw [h1, h2]
        omega
    · refine ⟨by rw [h2]; omega, fun _ => by rw [h1, h2], ?_, fun _ => by rw [h1, h2]⟩
      intro hef
      rw [he] at hef; cases hef
  · intro s s' draws h
    obtain ⟨f, _, _, hs'⟩ := resetGame_ok s s' draws h
    subst hs'
    rfl
  · intro loaded s h0 h
    exact (highScore_reachableFrom loaded s h0 h).1

/-- Witness for C16 (amended): the fifth meal of the run `fiveMeals` raises the
high score from 4 to 5, the new score. -/
theorem highScore_never_decreases_witness :
    update scoreFourState [⟨0, 0⟩] = .ok { levelTwoState with lastTick := 600 } ∧
    eats scoreFourState = true ∧
    ({ levelTwoState with lastTick := 600 } : GameState).highScore =
      max scoreFourState.highScore ({ levelTwoState with lastTick := 600 } : GameState).score :=
  ⟨rfl, rfl, (highScore_never_decreases.1 scoreFourState _ [⟨0, 0⟩] rfl).2.1 rfl⟩

/-! ## C17: consecutive snake cells are adjacent -/

theorem adjacent_advance (c d : Cell) (h : isDir d) : adjacent (advance c d) c := by
  rcases h with h | h | h | h <;> subst h <;>
    simp [adjacent, advance, DIR.UP, DIR.DOWN, DIR.LEFT, DIR.RIGHT]

theorem chain_getElem {R : Cell → Cell → Prop} :
    ∀ (l : List Cell), l.Chain' R → ∀ (i : Nat) (a b : Cell),
      l[i]? = some a → l[i + 1]? = some b → R a b
  | [], _, i, a, b, ha, _ => by simp at ha
  | [x], _, i, a, b, _, hb => by simp at hb
  | x :: y :: l, hc, 0, a, b, ha, hb => by
    simp at ha hb
    subst ha hb
    exact (List.chain'_cons.1 hc).1
  | x :: y :: l, hc, i + 1, a, b, ha, hb => by
    rw [List.getElem?_cons_succ] at ha hb
    exact chain_getElem (y :: l) (List.chain'_cons.1 hc).2 i a b ha hb

theorem adjacent_update (s s' : GameState) (draws : List Cell) (hd : isDir s.nextDirection)
    (hc : s.snake.Chain' adjacent) (h : update s draws = .ok s') :
    isDir s'.nextDirection ∧ s'.snake.Chain' adjacent := by
  obtain ⟨s0, rest, hs, hcase⟩ := update_cases s s' draws h
  rw [hs] at hc
  have hadj := adjacent_advance s0 s.nextDirection hd
  rcases hcase with ⟨_, hs'⟩ | ⟨_, _, _, hs'⟩ | ⟨_, _, _, f, _, _, hs'⟩
  · subst hs'
    exact ⟨hd, by rw [hs]; exact hc⟩
  · subst hs'
    refine ⟨hd, ?_⟩
    show List.Chain' adjacent (advance s0 s.nextDirection :: (s0 :: rest).dropLast)
    cases rest with
    | nil => exact List.chain'_singleton _
    | cons b l =>
      have hp : List.Chain' adjacent (s0 :: (b :: l).dropLast) :=
        hc.prefix (List.dropLast_prefix (s0 :: b :: l))
      exact List.chain'_cons.2 ⟨hadj, hp⟩
  · subst hs'
    exact ⟨hd, List.chain'_cons.2 ⟨hadj, hc⟩⟩

theorem adjacent_reachable (s : GameState) (h : Reachable s) :
    isDir s.nextDirection ∧ s.snake.Chain' adjacent := by
  refine Reachable.invariant (fun s => isDir s.nextDirection ∧ s.snake.Chain' adjacent)
    ?_ ?_ ?_ ?_ ?_ s h
  · intro s s' draws hr
    obtain ⟨f, _, _, hs'⟩ := resetGame_ok s s' draws hr
    subst hs'
    refine ⟨Or.inr (Or.inr (Or.inr rfl)), ?_⟩
    show List.Chain' adjacent [⟨10, 10⟩, ⟨9, 10⟩, ⟨8, 10⟩]
    exact List.chain'_cons.2 ⟨by simp [adjacent],
      List.chain'_cons.2 ⟨by simp [adjacent], List.chain'_singleton _⟩⟩
  · intro s hs
    exact hs
  · intro s hs
    exact hs
  · intro s r hs hr _
    exact ⟨hr, hs.2⟩
  · intro s t s' draws hs _ hu
    exact adjacent_update { s with lastTick := t } s' draws hs.1 hs.2 hu

/-- C17: in every reachable state every two consecutive snake cells are
grid-adjacent: they differ by exactly 1 in one coordinate and are equal in the
other. -/
theorem snake_cells_adjacent (s : GameState) (hr : Reachable s) :
    s.snake.Chain' adjacent ∧
    ∀ (i : Nat) (a b : Cell), s.snake[i]? = some a → s.snake[i + 1]? = some b →
      ((a.x - b.x = 1 ∨ b.x - a.x = 1) ∧ a.y = b.y) ∨
      (a.x = b.x ∧ (a.y - b.y = 1 ∨ b.y - a.y = 1)) := by
  have hc := (adjacent_reachable s hr).2
  exact ⟨hc, fun i a b ha hb => chain_getElem s.snake hc i a b ha hb⟩

/-- Witness for C17: the 8-cell snake at the end of the run `fiveMeals`. -/
theorem snake_cells_adjacent_witness :
    Reachable levelTwoState ∧ levelTwoState.snake.Chain' adjacent :=
  ⟨levelTwoState_reachable, (snake_cells_adjacent levelTwoState levelTwoState_reachable).1⟩

/-! ## C18: snake and food stay inside the grid -/

theorem inGrid_iff (c : Cell) : inGrid c ↔ 0 ≤ c.x ∧ c.x < 20 ∧ 0 ≤ c.y ∧ c.y < 20 := by
  simp [inGrid, COLS, ROWS, canvasWidth, canvasHeight, GRID]

theorem inGrid_update (s s' : GameState) (draws : List Cell) (hd : ∀ d ∈ draws, inGrid d)
    (hsn : ∀ c ∈ s.snake, inGrid c) (hf : inGrid s.food) (h : update s draws = .ok s') :
    (∀ c ∈ s'.snake, inGrid c) ∧ inGrid s'.food := by
  obtain ⟨s0, rest, hs, hcase⟩ := update_cases s s' draws h
  rcases hcase with ⟨_, hs'⟩ | ⟨hw, _, _, hs'⟩ | ⟨hw, _, _, f, hfd, _, hs'⟩
  · subst hs'
    exact ⟨hsn, hf⟩
  · subst hs'
    refine ⟨?_, hf⟩
    intro c hc
    rcases List.mem_cons.1 hc with hc | hc
    · rw [hc, inGrid_iff]
      exact (hitsWall_eq_false_iff _).1 hw
    · exact hsn c (hs ▸ (List.dropLast_subset _ hc))
  · subst hs'
    refine ⟨?_, hd f hfd⟩
    intro c hc
    rcases List.mem_cons.1 hc with hc | hc
    · rw [hc, inGrid_iff]
      exact (hitsWall_eq_false_iff _).1 hw
    · exact hsn c (hs ▸ hc)

theorem inGrid_reachable (s : GameState) (h : Reachable s) :
    (∀ c ∈ s.snake, inGrid c) ∧ inGrid s.food := by
  refine Reachable.invariant_guarded (fun s => (∀ c ∈ s.snake, inGrid c) ∧ inGrid s.food)
    ?_ ?_ ?_ ?_ s h
  · intro s s' draws hd hr
    obtain ⟨f, hf, _, hs'⟩ := resetGame_ok s s' draws hr
    subst hs'
    have hsn : ∀ c ∈ [(⟨10, 10⟩ : Cell), ⟨9, 10⟩, ⟨8, 10⟩], inGrid c := by decide
    exact ⟨⟨hsn, hd f hf⟩, ⟨hsn, hd f hf⟩⟩
  · intro s hs _ _
    exact hs
  · intro s r hs _ _
    exact hs
  · intro s t s' draws hs hd _ _ _ hu
    exact inGrid_update { s with lastTick := t } s' draws hd hs.1 hs.2 hu

theorem randomCell_inGrid (r : ℚ × ℚ) (h : isRandomPair r) : inGrid (randomCell r) := by
  obtain ⟨hx0, hx1, hy0, hy1⟩ := h
  rw [inGrid_iff]
  have hc : (COLS : ℚ) = 20 := by norm_num [COLS, canvasWidth, GRID]
  have hr : (ROWS : ℚ) = 20 := by norm_num [ROWS, canvasHeight, GRID]
  simp only [randomCell, hc, hr]
  refine ⟨Int.floor_nonneg.2 (by positivity), ?_, Int.floor_nonneg.2 (by positivity), ?_⟩
  · rw [Int.floor_lt]
    push_cast
    linarith
  · rw [Int.floor_lt]
    push_cast
    linarith

theorem inGrid_is_randomCell (c : Cell) (h : inGrid c) :
    ∃ r, isRandomPair r ∧ randomCell r = c := by
  rw [inGrid_iff] at h
  obtain ⟨hx0, hx1, hy0, hy1⟩ := h
  have hc : (COLS : ℚ) = 20 := by norm_num [COLS, canvasWidth, GRID]
  have hr : (ROWS : ℚ) = 20 := by norm_num [ROWS, canvasHeight, GRID]
  have hx0q : (0 : ℚ) ≤ (c.x : ℚ) := by exact_mod_cast hx0
  have hx1q : (c.x : ℚ) < 20 := by exact_mod_cast hx1
  have hy0q : (0 : ℚ) ≤ (c.y : ℚ) := by exact_mod_cast hy0
  have hy1q : (c.y : ℚ) < 20 := by exact_mod_cast hy1
  refine ⟨((c.x : ℚ) / 20, (c.y : ℚ) / 20), ⟨?_, ?_, ?_, ?_⟩, ?_⟩
  · exact div_nonneg hx0q (by norm_num)
  · rw [div_lt_one (by norm_num)]; exact hx1q
  · exact div_nonneg hy0q (by norm_num)
  · rw [div_lt_one (by norm_num)]; exact hy1q
  · cases c with
    | mk x y =>
      simp only [randomCell, hc, hr]
      have e1 : (x : ℚ) / 20 * 20 = (x : ℚ) := by field_simp
      have e2 : (y : ℚ) / 20 * 20 = (y : ℚ) := by field_simp
      rw [e1, e2, Int.floor_intCast, Int.floor_intCast]

theorem inGrid_are_randomCells (draws : List Cell) (h : ∀ d ∈ draws, inGrid d) :
    ∃ randoms : List (ℚ × ℚ), (∀ r ∈ randoms, isRandomPair r) ∧
      randoms.map randomCell = draws := by
  induction draws with
  | nil => exact ⟨[], by simp, rfl⟩
  | cons d rest ih =>
    obtain ⟨rs, hrs, hmap⟩ := ih (fun c hc => h c (List.mem_cons_of_mem _ hc))
    obtain ⟨r, hr, hrc⟩ := inGrid_is_randomCell d (h d (List.mem_cons_self _ _))
    refine ⟨r :: rs, ?_, by simp [hrc, hmap]⟩
    intro q hq
    rcases List.mem_cons.1 hq with hq | hq
    · rw [hq]; exact hr
    · exact hrs q hq

theorem randomCells_inGrid (randoms : List (ℚ × ℚ)) (h : ∀ r ∈ randoms, isRandomPair r) :
    ∀ d ∈ randoms.map randomCell, inGrid d := by
  intro d hd
  obtain ⟨r, hr, hrd⟩ := List.mem_map.1 hd
  rw [← hrd]
  exact randomCell_inGrid r (h r hr)

theorem reachableRandom_reachable (s : GameState) (h : ReachableRandom s) : Reachable s := by
  induction h with
  | boot hs randoms s hr h => exact Reachable.boot hs _ s (randomCells_inGrid randoms hr) h
  | next s s' e randoms _ hr h ih =>
    exact Reachable.next s s' e _ ih (randomCells_inGrid randoms hr) h

theorem reachable_reachableRandom (s : GameState) (h : Reachable s) : ReachableRandom s := by
  induction h with
  | boot hs draws s hd h =>
    obtain ⟨rs, hrs, hmap⟩ := inGrid_are_randomCells draws hd
    exact ReachableRandom.boot hs rs s hrs (by rw [hmap]; exact h)
  | next s s' e draws _ hd h ih =>
    obtain ⟨rs, hrs, hmap⟩ := inGrid_are_randomCells draws hd
    exact ReachableRandom.next s s' e rs ih hrs (by rw [hmap]; exact h)

theorem randomCell_near_one : randomCell (199 / 200, 199 / 200) = ⟨19, 19⟩ := by
  have hc : (COLS : ℚ) = 20 := by norm_num [COLS, canvasWidth, GRID]
  have hr : (ROWS : ℚ) = 20 := by norm_num [ROWS, canvasHeight, GRID]
  have hf : ⌊(199 / 200 : ℚ) * 20⌋ = 19 := by
    rw [Int.floor_eq_iff]
    constructor <;> norm_num
  simp only [randomCell, hc, hr, hf]

theorem cornerFoodState_reachableRandom : ReachableRandom cornerFoodState := by
  refine ReachableRandom.boot 0 [(199 / 200, 199 / 200)] cornerFoodState ?_ ?_
  · intro r hr
    rw [List.mem_singleton] at hr
    rw [hr]
    refine ⟨?_, ?_, ?_, ?_⟩ <;> norm_num
  · rw [List.map_singleton, randomCell_near_one]
    rfl

/-- C18: in every state the program reaches when each draw of `placeFood` is
`Math.floor(Math.random() * 20)` per axis, with `Math.random` returning a number
at least 0 and below 1, every snake cell and the food cell have integer
coordinates with `0 <= x < 20` and `0 <= y < 20`. These states are exactly the
reachable states of the other results. -/
theorem cells_inside_grid (s : GameState) (hr : ReachableRandom s) :
    (∀ c ∈ s.snake, 0 ≤ c.x ∧ c.x < 20 ∧ 0 ≤ c.y ∧ c.y < 20) ∧
    (0 ≤ s.food.x ∧ s.food.x < 20 ∧ 0 ≤ s.food.y ∧ s.food.y < 20) ∧
    Reachable s := by
  have hreach := reachableRandom_reachable s hr
  obtain ⟨hsn, hf⟩ := inGrid_reachable s hreach
  exact ⟨fun c hc => (inGrid_iff c).1 (hsn c hc), (inGrid_iff _).1 hf, hreach⟩

/-- Witness for C18: when `Math.random` returns 0.995 twice at start-up, the
food lands on (19, 19), the last column and row, still inside the grid. -/
theorem cells_inside_grid_witness :
    ReachableRandom cornerFoodState ∧ cornerFoodState.food = ⟨19, 19⟩ ∧
    (0 ≤ cornerFoodState.food.x ∧ cornerFoodState.food.x < 20 ∧
      0 ≤ cornerFoodState.food.y ∧ cornerFoodState.food.y < 20) :=
  ⟨cornerFoodState_reachableRandom, rfl,
    (cells_inside_grid cornerFoodState cornerFoodState_reachableRandom).2.1⟩

/-! ## C19: the length of the snake is 3 plus the score -/

theorem length_update (s s' : GameState) (draws : List Cell)
    (hl : (s.snake.length : Int) = 3 + s.score) (h : update s draws = .ok s') :
    (s'.snake.length : Int) = 3 + s'.score := by
  obtain ⟨s0, rest, hs, hcase⟩ := update_cases s s' draws h
  rw [hs] at hl
  rcases hcase with ⟨_, hs'⟩ | ⟨_, _, _, hs'⟩ | ⟨_, _, _, f, _, _, hs'⟩
  · subst hs'
    show ((s.snake.length : Nat) : Int) = 3 + s.score
    rw [hs]
    exact hl
  · subst hs'
    show (((advance s0 s.nextDirection :: (s0 :: rest).dropLast).length : Nat) : Int) =
      3 + s.score
    rw [← hl]
    simp
  · subst hs'
    show (((advance s0 s.nextDirection :: s0 :: rest).length : Nat) : Int) =
      3 + (s.score + 1)
    rw [List.length_cons]
    push_cast
    omega

theorem length_reachable (s : GameState) (h : Reachable s) :
    (s.snake.length : Int) = 3 + s.score := by
  refine Reachable.invariant (fun s => (s.snake.length : Int) = 3 + s.score) ?_ ?_ ?_ ?_ ?_ s h
  · intro s s' draws hr
    obtain ⟨f, _, _, hs'⟩ := resetGame_ok s s' draws hr
    subst hs'
    rfl
  · intro s hs
    exact hs
  · intro s hs
    exact hs
  · intro s r hs _ _
    exact hs
  · intro s t s' draws hs _ hu
    exact length_update { s with lastTick := t } s' draws hs hu

/-- C19: in every reachable state the length of the snake is 3 plus the score. -/
theorem snake_length_is_three_plus_score (s : GameState) (hr : Reachable s) :
    (s.snake.length : Int) = 3 + s.score :=
  length_reachable s hr

/-- Witness for C19: after the run `fiveMeals` the snake has 8 cells and the
score is 5. -/
theorem snake_length_is_three_plus_score_witness :
    Reachable levelTwoState ∧ levelTwoState.snake.length = 8 ∧ levelTwoState.score = 5 ∧
    (levelTwoState.snake.length : Int) = 3 + levelTwoState.score :=
  ⟨levelTwoState_reachable, rfl, rfl,
    snake_length_is_three_plus_score levelTwoState levelTwoState_reachable⟩

/-! ## C20: the four flag combinations -/

theorem flags_reachable (s : GameState) (h : Reachable s) : flagsOk s := by
  refine Reachable.invariant_guarded flagsOk ?_ ?_ ?_ ?_ s h
  · intro s s' draws _ hr
    obtain ⟨f, _, _, hs'⟩ := resetGame_ok s s' draws hr
    subst hs'
    exact ⟨Or.inl ⟨rfl, rfl, rfl⟩, Or.inr (Or.inl ⟨rfl, rfl, rfl⟩)⟩
  · intro s hs hrun hg
    rcases hs with ⟨h1, _, _⟩ | ⟨_, h2, _⟩ | ⟨_, h2, _⟩ | ⟨_, _, h3⟩
    · rw [hrun] at h1; cases h1
    · exact Or.inr (Or.inr (Or.inl ⟨hrun, by simp [h2], hg⟩))
    · exact Or.inr (Or.inl ⟨hrun, by simp [h2], hg⟩)
    · rw [hg] at h3; cases h3
  · intro s r hs _ _
    exact hs
  · intro s t s' draws _ _ hrun hp hg hu
    obtain ⟨s0, rest, _, hcase⟩ := update_cases _ s' draws hu
    rcases hcase with ⟨_, hs'⟩ | ⟨_, _, _, hs'⟩ | ⟨_, _, _, f, _, _, hs'⟩
    · subst hs'
      exact Or.inr (Or.inr (Or.inr ⟨rfl, hp, rfl⟩))
    · subst hs'
      exact Or.inr (Or.inl ⟨hrun, hp, hg⟩)
    · subst hs'
      exact Or.inr (Or.inl ⟨hrun, hp, hg⟩)

theorem runningState_reachable : Reachable runningState :=
  Reachable.next freshState runningState (.key .Space) [⟨0, 0⟩] freshState_reachable
    (by decide) rfl

theorem pausedState_reachable : Reachable pausedState :=
  Reachable.next runningState pausedState (.key .KeyP) [] runningState_reachable
    (by decide) rfl

theorem gameOverState_reachable : Reachable gameOverState :=
  reachableEaten_reachable gameOverState 0
    (runFrom_reachableEaten intoTheWall freshState gameOverState 0 0
      (ReachableEaten.boot 0 [⟨0, 0⟩] freshState (by decide) rfl) (by decide) rfl)

/-- C20: in every reachable state the flags `(running, paused, gameOver)` are one
of `(false, false, false)` Idle, `(true, false, false)` Running,
`(true, true, false)` Paused, `(false, false, true)` GameOver; so `gameOver`
implies not running, and `paused` implies running and not over. -/
theorem flags_one_of_four (s : GameState) (hr : Reachable s) :
    ((s.running = false ∧ s.paused = false ∧ s.gameOver = false) ∨
     (s.running = true ∧ s.paused = false ∧ s.gameOver = false) ∨
     (s.running = true ∧ s.paused = true ∧ s.gameOver = false) ∨
     (s.running = false ∧ s.paused = false ∧ s.gameOver = true)) ∧
    (s.gameOver = true → s.running = false) ∧
    (s.paused = true → s.running = true ∧ s.gameOver = false) := by
  have hf := flags_reachable s hr
  refine ⟨hf, ?_, ?_⟩
  · intro hg
    rcases hf with ⟨_, _, h⟩ | ⟨_, _, h⟩ | ⟨_, _, h⟩ | ⟨h, _, _⟩
    · rw [hg] at h; cases h
    · rw [hg] at h; cases h
    · rw [hg] at h; cases h
    · exact h
  · intro hp
    rcases hf with ⟨_, h, _⟩ | ⟨_, h, _⟩ | ⟨h1, _, h3⟩ | ⟨_, h, _⟩
    · rw [hp] at h; cases h
    · rw [hp] at h; cases h
    · exact ⟨h1, h3⟩
    · rw [hp] at h; cases h

/-- Witness for C20: each of the four combinations occurs in a reachable state:
the fresh game, the started game, the paused game, and the game after the run
`intoTheWall`. -/
theorem flags_one_of_four_witness :
    (Reachable freshState ∧ freshState.running = false ∧ freshState.paused = false ∧
      freshState.gameOver = false) ∧
    (Reachable runningState ∧ runningState.running = true ∧ runningState.paused = false ∧
      runningState.gameOver = false) ∧
    (Reachable pausedState ∧ pausedState.running = true ∧ pausedState.paused = true ∧
      pausedState.gameOver = false) ∧
    (Reachable gameOverState ∧ gameOverState.running = false ∧
      gameOverState.paused = false ∧ gameOverState.gameOver = true) ∧
    (gameOverState.gameOver = true → gameOverState.running = false) :=
  ⟨⟨freshState_reachable, rfl, rfl, rfl⟩, ⟨runningState_reachable, rfl, rfl, rfl⟩,
    ⟨pausedState_reachable, rfl, rfl, rfl⟩, ⟨gameOverState_reachable, rfl, rfl, rfl⟩,
    (flags_one_of_four gameOverState gameOverState_reachable).2.1⟩

end Snake
